import Mathlib

/-!
Verification development for the def-use CFG builder of `Krakatau/java/cfg.py`.

The Python source is shallowly embedded: blocks live in an arena (a list) and
are referenced by their index, mirroring Python object identity; the pending
successor map (`break_dict`, a `defaultdict(list)`) is a total function with
default `[]` where deletion stores `[]`; the catch accumulator lists (which are
shared mutable lists in Python) live in an `accums` arena referenced by index,
and a catch stack is a list of such indices.  Operations that would raise at
runtime in Python (dereferencing the `None` current-block sentinel, draining a
pending entry that contains the `None` sentinel) are modelled by returning
`none`.

The AST node classes (`Krakatau/java/ast.py`) and `graph_util.topologicalSort`
are not part of the embedded source file; they are modelled from the spec where
needed (see `Expr`, `Stmt`, `Scope` and `reachFrom`).
-/

abbrev Var := Nat

abbrev Key := Nat

/-- Modelled from the spec: the static types the source consults
(`objtypes.FloatTT`, `objtypes.DoubleTT`) plus non-floating representatives;
only membership in the floating pair is ever inspected by `canThrow`. -/
inductive JTy where
  | FloatTT : JTy
  | DoubleTT : JTy
  | IntTT : JTy
  | LongTT : JTy
  | ObjTT : JTy
deriving DecidableEq, Repr

/-- An event line of a block: `('use', var)`, `('def', (var, var2_opt))` or
`('canthrow', None)` in the source. -/
inductive Line where
  | use : Var → Line
  | defn : Var → Option Var → Line
  | canthrow : Line
deriving DecidableEq, Repr

/-- Modelled from the spec: the expression node kinds the classifier
distinguishes.  Each node exposes its operand list; a `binaryInfix` node
additionally exposes its operator string and its static result type, and a
`local_` node its variable identity — exactly the read-only properties
`cfg.py` inspects.  `other` stands for any further composite node kind. -/
inductive Expr where
  | local_ : Var → Expr
  | literal : Expr
  | assignment : Expr → Expr → Expr
  | binaryInfix : String → JTy → List Expr → Expr
  | arrayAccess : List Expr → Expr
  | arrayCreation : List Expr → Expr
  | cast : List Expr → Expr
  | classInstanceCreation : List Expr → Expr
  | fieldAccess : List Expr → Expr
  | methodInvocation : List Expr → Expr
  | other : List Expr → Expr
deriving Repr

/-- Source `varOrNone`: the variable identity of a bare `ast.Local`, else
`None`. -/
def varOrNone : Expr → Option Var
  | .local_ v => some v
  | _ => none

/-- Source `canThrow(expr)`: array access/creation, casts, object construction,
field access and invocations may throw; a division or modulo throws exactly
when the expression's static type is not a floating point type. -/
def canThrow : Expr → Bool
  | .arrayAccess _ => true
  | .arrayCreation _ => true
  | .cast _ => true
  | .classInstanceCreation _ => true
  | .fieldAccess _ => true
  | .methodInvocation _ => true
  | .binaryInfix opstr dtype _ =>
      if opstr = "/" ∨ opstr = "%" then
        decide (dtype ≠ JTy.FloatTT ∧ dtype ≠ JTy.DoubleTT)
      else false
  | _ => false

/-- Trailing `canthrow` marker appended after an expression's own events when
`canThrow` holds (the final two lines of source `visitExpr`). -/
def addThrow (e : Expr) (lines : List Line) : List Line :=
  if canThrow e then lines ++ [Line.canthrow] else lines

mutual

/-- Source `visitExpr(expr, lines)`: appends the expression's events to
`lines` in evaluation order.  A bare local appends its use; an assignment
visits the LHS only when it is not a local (to avoid a spurious use), then the
RHS, then appends the `def`; every other node visits its params in order; a
trailing `canthrow` is appended when `canThrow` holds.  The Python
`visitExpr(None, lines)` no-op is modelled by `visitExprOpt` below. -/
def visitExpr : Expr → List Line → List Line
  | .local_ v, lines => addThrow (.local_ v) (lines ++ [Line.use v])
  | .literal, lines => addThrow .literal lines
  | .assignment lhsE rhsE, lines =>
      let lhs := varOrNone lhsE
      let rhs := varOrNone rhsE
      let lines := if lhs = none then visitExpr lhsE lines else lines
      let lines := visitExpr rhsE lines
      let lines := match lhs with
        | some t => lines ++ [Line.defn t rhs]
        | none => lines
      addThrow (.assignment lhsE rhsE) lines
  | .binaryInfix opstr dtype ps, lines =>
      addThrow (.binaryInfix opstr dtype ps) (visitList ps lines)
  | .arrayAccess ps, lines => addThrow (.arrayAccess ps) (visitList ps lines)
  | .arrayCreation ps, lines => addThrow (.arrayCreation ps) (visitList ps lines)
  | .cast ps, lines => addThrow (.cast ps) (visitList ps lines)
  | .classInstanceCreation ps, lines =>
      addThrow (.classInstanceCreation ps) (visitList ps lines)
  | .fieldAccess ps, lines => addThrow (.fieldAccess ps) (visitList ps lines)
  | .methodInvocation ps, lines =>
      addThrow (.methodInvocation ps) (visitList ps lines)
  | .other ps, lines => addThrow (.other ps) (visitList ps lines)

/-- Source `for param in expr.params: visitExpr(param, lines)`. -/
def visitList : List Expr → List Line → List Line
  | [], lines => lines
  | p :: ps, lines => visitList ps (visitExpr p lines)

end

/-- Source `visitExpr` on an optional expression (`if expr is None: return`). -/
def visitExprOpt : Option Expr → List Line → List Line
  | none, lines => lines
  | some e, lines => visitExpr e lines

/-- Source `DUBlock`: key, caught exception descriptors (a tuple that is empty
or a singleton), event lines, and the two successor lists.  Successors are
arena indices standing for the Python object references. -/
structure DUBlock where
  key : Key
  caught_excepts : List Var := []
  lines : List Line := []
  e_successors : List Nat := []
  n_successors : List Nat := []
deriving DecidableEq, Repr

/-- Placeholder block used as the `getD` default for arena lookups; it is never
reachable on indices that were actually allocated. -/
def dB : DUBlock := { key := 0 }

/-- Source `DUBlock.canThrow`: `('canthrow', None) in self.lines`. -/
def DUBlock.canThrow (b : DUBlock) : Bool := decide (Line.canthrow ∈ b.lines)

/-- Traversal state: the block arena (`self.blocks`), the arena of catch
accumulator lists (each Python catch-stack entry is a shared mutable list,
modelled by an index into `accums`), and the pending successor map
`break_dict`.  A pending predecessor entry is `some i` for block `i`, or
`none` for the Python `None` sentinel stored when control cannot reach the
registration point. -/
structure TState where
  blocks : List DUBlock
  accums : List (List Nat)
  bd : Key → List (Option Nat)

/-- The empty initial state of `makeCFG`. -/
def initState : TState := { blocks := [], accums := [], bd := fun _ => [] }

/-- Update one block of the arena in place. -/
def setBlock (bs : List DUBlock) (i : Nat) (f : DUBlock → DUBlock) : List DUBlock :=
  bs.set i (f (bs.getD i dB))

/-- Pointwise update of the pending successor map; deletion stores `[]`,
matching a `defaultdict(list)` after `del`. -/
def bdSet (bd : Key → List (Option Nat)) (k : Key) (v : List (Option Nat)) :
    Key → List (Option Nat) :=
  fun k2 => if k2 = k then v else bd k2

/-- Source `break_dict[key].append(block)` where `block` may be the `None`
sentinel. -/
def registerPending (k : Key) (cur : Option Nat) (st : TState) : TState :=
  { st with bd := bdSet st.bd k (st.bd k ++ [cur]) }

/-- Strips the `some`s from a drained pending list; `none` means the Python
code would dereference the `None` sentinel (an `AttributeError`). -/
def allSome : List (Option Nat) → Option (List Nat)
  | [] => some []
  | none :: _ => none
  | some x :: rest => (allSome rest).map (fun l => x :: l)

/-- Source `DUGraph.makeBlock(key, break_dict, caught_except,
myexcept_parents)`: create the block, wire every pending predecessor to it,
delete the pending entry, and for a catch head record the caught exception and
wire the exceptional edges from the registered throw sources.  Returns the new
block's arena index. -/
def makeBlock (key : Key) (st : TState) (cm : Option (Var × List Nat)) :
    Option (TState × Nat) :=
  let idx := st.blocks.length
  let blocks1 := st.blocks ++ [{ key := key }]
  match allSome (st.bd key) with
  | none => none
  | some parents =>
    let blocks2 := parents.foldl
      (fun bs p => setBlock bs p (fun b => { b with n_successors := b.n_successors ++ [idx] }))
      blocks1
    let bd2 := bdSet st.bd key []
    match cm with
    | none => some ({ st with blocks := blocks2, bd := bd2 }, idx)
    | some (ce, eparents) =>
      let blocks3 := setBlock blocks2 idx (fun b => { b with caught_excepts := [ce] })
      let blocks4 := eparents.foldl
        (fun bs p => setBlock bs p (fun b => { b with e_successors := b.e_successors ++ [idx] }))
        blocks3
      some ({ st with blocks := blocks4, bd := bd2 }, idx)

/-- Source `DUGraph.finishBlock(block, catch_stack)`: when the completed block
can throw, append it to every accumulator on the catch stack. -/
def finishBlock (c : Nat) (st : TState) (catch_stack : List Nat) : TState :=
  if (st.blocks.getD c dB).canThrow then
    { st with
      accums := catch_stack.foldl (fun acc i => acc.set i (acc.getD i [] ++ [c])) st.accums }
  else st

/-- Loop head back-edge resolution (source lines under `if isloophead`): the
pending entries registered against the loop's continue key are appended to the
head block's normal successors and the entry is deleted.  A `none` sentinel in
the pending list is a malformed-input crash in the source, modelled as
failure. -/
def drainLoop (ck : Key) (head : Nat) (st : TState) : Option TState :=
  match allSome (st.bd ck) with
  | none => none
  | some parents =>
    some { st with
      blocks := setBlock st.blocks head
        (fun b => { b with n_successors := b.n_successors ++ parents }),
      bd := bdSet st.bd ck [] }

/-- Append event lines produced by `f` to block `c` (the block the statements
of the current scope accumulate into). -/
def appendLines (c : Nat) (f : List Line → List Line) (st : TState) : TState :=
  { st with blocks := setBlock st.blocks c (fun b => { b with lines := f b.lines }) }

mutual

/-- Modelled from the spec: statement tree nodes, exposing exactly the fields
the traversal reads — continue/break/jump keys, sub-scopes, the scrutinee
expression, a switch's default flag, and a try's (caught descriptor, catch
scope) pairs.  A `whileStmt` has a statically-true condition and its continue
key is its body's (both asserted in the source); a `statementBlock` is itself
a scope plus its break key. -/
inductive Stmt where
  | expressionStmt : Option Expr → Stmt
  | throwStmt : Option Expr → Stmt
  | returnStmt : Option Expr → Stmt
  | ifStmt : Option Expr → Option Key → List Scope → Stmt
  | switchStmt : Option Expr → Bool → Option Key → List Scope → Stmt
  | whileStmt : Option Key → Scope → Stmt
  | tryStmt : Option Key → Scope → List (Var × Scope) → Stmt
  | statementBlock : Option Key → Scope → Stmt

/-- Modelled from the spec: a scope has its continue key (entry identity), an
optional jump key (fallthrough target) and its ordered statements. -/
inductive Scope where
  | mk : Key → Option Key → List Stmt → Scope

end

/-- Entry identity of a scope. -/
def Scope.continueKey : Scope → Key
  | .mk ck _ _ => ck

/-- Fallthrough target of a scope, when control falls out of it. -/
def Scope.jumpKey : Scope → Option Key
  | .mk _ jk _ => jk

/-- Ordered statements of a scope. -/
def Scope.statements : Scope → List Stmt
  | .mk _ _ l => l

/-- Common tail of every compound statement (source lines after the per-kind
dispatch): when the statement has a break key, finish the current block and
start a fresh block at the break key; otherwise the current block becomes the
unusable `None` sentinel.  Dereferencing the sentinel fails. -/
def stmtTail (bk : Option Key) (st : TState) (catch_stack : List Nat)
    (cur : Option Nat) : Option (TState × Option Nat) :=
  match bk with
  | some b =>
    match cur with
    | none => none
    | some c =>
      match makeBlock b (finishBlock c st catch_stack) none with
      | none => none
      | some (st2, idx) => some (st2, some idx)
  | none => some (st, none)

mutual

/-- Source `DUGraph.visitScope(scope, isloophead, break_dict, catch_stack,
caught_except, myexcept_parents)`.  The two trailing Python parameters are
combined into `cm` (they are asserted to be both present or both absent).
Returns the updated traversal state, or `none` where the source would raise. -/
def visitScope : Scope → Bool → TState → List Nat → Option (Var × List Nat) →
    Option TState
  | .mk ck jk stmts, isloophead, st, catch_stack, cm =>
    match makeBlock ck st cm with
    | none => none
    | some (st1, head) =>
      match visitStmts stmts st1 catch_stack (some head) with
      | none => none
      | some (st2, cur) =>
        let st3 := match jk with
          | some j => registerPending j cur st2
          | none => st2
        match (if isloophead then drainLoop ck head st3 else some st3) with
        | none => none
        | some st4 =>
          some (match cur with
            | some c => finishBlock c st4 catch_stack
            | none => st4)

/-- The statement loop of `visitScope`, threading the current block. -/
def visitStmts : List Stmt → TState → List Nat → Option Nat →
    Option (TState × Option Nat)
  | [], st, _, cur => some (st, cur)
  | stmt :: rest, st, catch_stack, cur =>
    match visitStmt1 stmt st catch_stack cur with
    | none => none
    | some (st2, cur2) => visitStmts rest st2 catch_stack cur2

/-- One iteration of the statement loop of `visitScope`. -/
def visitStmt1 : Stmt → TState → List Nat → Option Nat →
    Option (TState × Option Nat)
  | .expressionStmt e, st, _, cur =>
    match cur with
    | none => none
    | some c => some (appendLines c (visitExprOpt e) st, some c)
  | .returnStmt e, st, _, cur =>
    match cur with
    | none => none
    | some c => some (appendLines c (visitExprOpt e) st, some c)
  | .throwStmt e, st, _, cur =>
    match cur with
    | none => none
    | some c =>
      some (appendLines c (fun ls => visitExprOpt e ls ++ [Line.canthrow]) st, some c)
  | .ifStmt e bk subs, st, catch_stack, cur =>
    match cur with
    | none => none
    | some c =>
      -- the source also computes the fallthrough jump list (`jumps`, `ft`)
      -- here, but that computation is dead: `jumps` is never read afterwards
      let st1 := appendLines c (visitExprOpt e) st
      match visitSubs subs c st1 catch_stack with
      | none => none
      | some st2 => stmtTail bk st2 catch_stack (some c)
  | .switchStmt e _ bk subs, st, catch_stack, cur =>
    match cur with
    | none => none
    | some c =>
      -- the `hasDefault` flag only feeds the dead `jumps`/`ft` computation
      let st1 := appendLines c (visitExprOpt e) st
      match visitSubs subs c st1 catch_stack with
      | none => none
      | some st2 => stmtTail bk st2 catch_stack (some c)
  | .whileStmt bk body, st, catch_stack, cur =>
    let st1 := registerPending body.continueKey cur st
    match visitScope body true st1 catch_stack none with
    | none => none
    | some st2 => stmtTail bk st2 catch_stack cur
  | .tryStmt bk tryb pairs, st, catch_stack, cur =>
    let base := st.accums.length
    let st1 := { st with accums := st.accums ++ List.replicate pairs.length [] }
    let newIdxs := (List.range pairs.length).map (fun i => base + i)
    let st2 := registerPending tryb.continueKey cur st1
    match visitScope tryb false st2 (catch_stack ++ newIdxs) none with
    | none => none
    | some st3 =>
      match visitPairs pairs st3 catch_stack (catch_stack ++ newIdxs) with
      | none => none
      | some (st4, _) => stmtTail bk st4 catch_stack cur
  | .statementBlock bk sc, st, catch_stack, cur =>
    let st1 := registerPending sc.continueKey cur st
    match visitScope sc false st1 catch_stack none with
    | none => none
    | some st2 => stmtTail bk st2 catch_stack cur

/-- The sub-scope loop of the `if`/`switch` case: register the current block
as pending predecessor of each sub-scope's entry and recurse. -/
def visitSubs : List Scope → Nat → TState → List Nat → Option TState
  | [], _, st, _ => some st
  | sub :: rest, c, st, catch_stack =>
    let st1 := registerPending sub.continueKey (some c) st
    match visitScope sub false st1 catch_stack none with
    | none => none
    | some st2 => visitSubs rest c st2 catch_stack

/-- The catch-clause loop of the `try` case: pop the most recently pushed
accumulator (Python `new_stack.pop()`) and recurse into the catch scope with
its caught descriptor and the popped throw sources. -/
def visitPairs : List (Var × Scope) → TState → List Nat → List Nat →
    Option (TState × List Nat)
  | [], st, _, stk => some (st, stk)
  | (v, cb) :: rest, st, catch_stack, stk =>
    match stk.getLast? with
    | none => none
    | some pidx =>
      let parents := st.accums.getD pidx []
      match visitScope cb false st catch_stack (some (v, parents)) with
      | none => none
      | some st2 => visitPairs rest st2 catch_stack stk.dropLast

end

/-- The def-use graph: the arena of all blocks ever created, the block
collection (`self.blocks`, as arena indices), and the entry index.  Keeping
the arena alongside the collection mirrors Python object references surviving
the reachability pruning. -/
structure DUGraph where
  arena : List DUBlock
  blocks : List Nat
  entry : Nat
deriving DecidableEq, Repr

/-- Successor callback used by the finalizer, source
`lambda block: (block.n_successors + block.e_successors)`. -/
def succsOf (ar : List DUBlock) (i : Nat) : List Nat :=
  (ar.getD i dB).n_successors ++ (ar.getD i dB).e_successors

/-- Modelled from the spec: one round of the reachable-set closure standing in
for `graph_util.topologicalSort` (absent from the embedded sources), which
collects the blocks reachable from the roots over normal and exceptional
edges. -/
def expandR (ar : List DUBlock) (vis : List Nat) : List Nat :=
  vis ++ (List.range ar.length).filter
    (fun i => decide (i ∉ vis ∧ ∃ j ∈ vis, i ∈ succsOf ar j))

/-- Iterated closure rounds. -/
def reachIter (ar : List DUBlock) : Nat → List Nat → List Nat
  | 0, vis => vis
  | n + 1, vis => reachIter ar n (expandR ar vis)

/-- Modelled from the spec: the set of blocks reachable from the start list,
obtained after `ar.length` closure rounds (enough to reach the fixpoint). -/
def reachFrom (ar : List DUBlock) (start : List Nat) : List Nat :=
  reachIter ar ar.length start

/-- Reachability over normal and exceptional successor edges, the
specification of the finalizer's pruning. -/
inductive Reach (ar : List DUBlock) (s : Nat) : Nat → Prop
  | refl : Reach ar s s
  | step : ∀ {j k}, Reach ar s j → k ∈ succsOf ar j → k < ar.length → Reach ar s k

/-- Source `DUGraph.makeCFG(root)`: run the traversal from the empty state,
take the first materialized block as entry, and keep exactly the blocks
reachable from it (the source also prints the number of dropped blocks as a
warning, a diagnostic with no effect on the graph). -/
def makeCFG (root : Scope) : Option DUGraph :=
  match visitScope root false initState [] none with
  | none => none
  | some st =>
    some { arena := st.blocks, blocks := reachFrom st.blocks [0], entry := 0 }

/-- Source `DUGraph.replace` inner rewrite of one event line. -/
def replaceLine (old new : Var) : Line → Line
  | .use v => if v = old then .use new else .use v
  | .defn t s => .defn (if t = old then new else t) (if s = some old then some new else s)
  | .canthrow => .canthrow

/-- Per-block rewrite of `DUGraph.replace`. -/
def replaceBlock (old new : Var) (b : DUBlock) : DUBlock :=
  { b with lines := b.lines.map (replaceLine old new) }

/-- Apply a per-block update at every index of the collection, mirroring a
Python `for block in self.blocks:` mutation loop. -/
def applyAll (f : DUBlock → DUBlock) (idxs : List Nat) (ar : List DUBlock) :
    List DUBlock :=
  idxs.foldl (fun a i => setBlock a i f) ar

/-- Source `DUGraph.replace(old, new)`: fails (assertion) when `old = new` or
when `old` is a caught exception descriptor of some block; otherwise rewrites
`old` to `new` in every use event and in both components of every def event. -/
def DUGraph.replace (g : DUGraph) (old new : Var) : Option DUGraph :=
  if old = new then none
  else if g.blocks.any (fun i => decide (old ∈ (g.arena.getD i dB).caught_excepts))
  then none
  else some { g with arena := applyAll (replaceBlock old new) g.blocks g.arena }

/-- One step of the `simplify` loop over a block's lines, with state
`(newlines, last)`: a self-copy def is dropped; otherwise a def is always
retained; a non-def equal to the last retained line is dropped. -/
def simplifyStep (acc : List Line × Option Line) (line : Line) :
    List Line × Option Line :=
  match line with
  | .defn t s =>
      if some t = s then acc
      else (acc.1 ++ [line], some line)
  | _ =>
      if some line = acc.2 then acc
      else (acc.1 ++ [line], some line)

/-- Source `DUGraph.simplify` applied to one block's lines. -/
def simplifyLines (lines : List Line) : List Line :=
  (lines.foldl simplifyStep ([], none)).1

/-- Source `DUGraph.simplify()`: prune redundant lines of every block. -/
def DUGraph.simplify (g : DUGraph) : DUGraph :=
  { g with
    arena := applyAll (fun b => { b with lines := simplifyLines b.lines }) g.blocks g.arena }

/-- Rewritten from the amended claim's words: walking the events while
remembering the last retained event, drop a def whose target equals its copy
source, drop a non-def event equal to the last retained event, and keep
everything else (duplicate def events are retained). -/
def simplifySpecGo (last : Option Line) : List Line → List Line
  | [] => []
  | l :: ls =>
    match l with
    | .defn t s =>
        if some t = s then simplifySpecGo last ls
        else l :: simplifySpecGo (some l) ls
    | _ =>
        if some l = last then simplifySpecGo last ls
        else l :: simplifySpecGo (some l) ls

/-- The amended per-block simplification contract. -/
def simplifySpec (lines : List Line) : List Line := simplifySpecGo none lines

/-- Does a line mention the variable `v` (as a use, a def target or a def copy
source)? -/
def lineMentions (v : Var) : Line → Bool
  | .use w => decide (w = v)
  | .defn t s => decide (t = v) || decide (s = some v)
  | .canthrow => false

/-- Cons an optional key onto a key list. -/
def optCons : Option Key → List Key → List Key
  | some k, T => k :: T
  | none, T => T

mutual

/-- Well-formed statement trees, parameterised by the list `T` of keys whose
pending entries the enclosing context is still going to drain: the scope's
jump key must be such a key (or, for a loop body, its own continue key), and
all nested statements must be well formed with the targets available at their
position. -/
def WFscope (T : List Key) : Scope → Bool → Bool
  | .mk ck jk stmts, isloophead =>
    let T2 := if isloophead then ck :: T else T
    WFstmts T2 stmts &&
      (match jk with
       | some j => decide (j ∈ T2)
       | none => true)

/-- Well-formedness of a statement sequence. -/
def WFstmts (T : List Key) : List Stmt → Bool
  | [] => true
  | s :: rest => WFstmt T s && WFstmts T rest

/-- Well-formedness of a single statement: the sub-scopes of a compound
statement may additionally target the statement's break key (drained right
after it), a loop body its continue key, and an `if`/`switch` sub-scope the
entry keys of its later siblings (drained when those are materialized, e.g.
switch fallthrough). -/
def WFstmt (T : List Key) : Stmt → Bool
  | .expressionStmt _ => true
  | .throwStmt _ => true
  | .returnStmt _ => true
  | .ifStmt _ bk subs => WFsubs (optCons bk T) subs
  | .switchStmt _ _ bk subs => WFsubs (optCons bk T) subs
  | .whileStmt bk body => WFscope (optCons bk T) body true
  | .tryStmt bk tryb pairs =>
      WFscope (optCons bk T) tryb false && WFpairs (optCons bk T) pairs
  | .statementBlock bk sc => WFscope (optCons bk T) sc false

/-- Well-formedness of `if`/`switch` sub-scopes. -/
def WFsubs (T : List Key) : List Scope → Bool
  | [] => true
  | s :: rest => WFscope (rest.map Scope.continueKey ++ T) s false && WFsubs T rest

/-- Well-formedness of catch clauses. -/
def WFpairs (T : List Key) : List (Var × Scope) → Bool
  | [] => true
  | (_, s) :: rest => WFscope T s false && WFpairs T rest

end

/-! ### Basic arena lemmas -/

theorem getD_setBlock (bs : List DUBlock) (i j : Nat) (f : DUBlock → DUBlock) :
    (setBlock bs i f).getD j dB =
      if j = i ∧ i < bs.length then f (bs.getD i dB) else bs.getD j dB := by
  by_cases hj : j = i ∧ i < bs.length
  · obtain ⟨rfl, hlt⟩ := hj
    simp [setBlock, List.getD_eq_getElem?_getD, List.getElem?_set, hlt]
  · rw [if_neg hj]
    by_cases he : j = i
    · subst he
      have hge : bs.length ≤ j := by
        by_contra hlt
        exact hj ⟨rfl, Nat.lt_of_not_le hlt⟩
      simp [setBlock, List.getD_eq_getElem?_getD, List.getElem?_set,
        Nat.not_lt.mpr hge, List.getElem?_eq_none hge]
    · simp [setBlock, List.getD_eq_getElem?_getD, List.getElem?_set, Ne.symm he]

theorem length_setBlock (bs : List DUBlock) (i : Nat) (f : DUBlock → DUBlock) :
    (setBlock bs i f).length = bs.length := by
  simp [setBlock]

theorem getD_out_of_range (bs : List DUBlock) (j : Nat) (h : bs.length ≤ j) :
    bs.getD j dB = dB :=
  List.getD_eq_default bs dB h

theorem length_applyAll (f : DUBlock → DUBlock) (idxs : List Nat) (ar : List DUBlock) :
    (applyAll f idxs ar).length = ar.length := by
  induction idxs generalizing ar with
  | nil => rfl
  | cons j rest ih =>
      show (applyAll f rest (setBlock ar j f)).length = ar.length
      rw [ih, length_setBlock]

theorem applyAll_getD_nmem (f : DUBlock → DUBlock) :
    ∀ (idxs : List Nat) (ar : List DUBlock) (i : Nat), i ∉ idxs →
      (applyAll f idxs ar).getD i dB = ar.getD i dB := by
  intro idxs
  induction idxs with
  | nil => intro ar i _; rfl
  | cons j rest ih =>
      intro ar i h
      have hj : i ∉ rest := fun hm => h (List.mem_cons_of_mem _ hm)
      have hne : i ≠ j := fun he => h (he ▸ List.mem_cons_self _ _)
      show (applyAll f rest (setBlock ar j f)).getD i dB = ar.getD i dB
      rw [ih (setBlock ar j f) i hj, getD_setBlock]
      simp [hne]

theorem applyAll_getD (f : DUBlock → DUBlock) :
    ∀ (idxs : List Nat) (ar : List DUBlock) (i : Nat), idxs.Nodup →
      (applyAll f idxs ar).getD i dB =
        if i ∈ idxs ∧ i < ar.length then f (ar.getD i dB) else ar.getD i dB := by
  intro idxs
  induction idxs with
  | nil => intro ar i _; simp [applyAll]
  | cons j rest ih =>
      intro ar i hnd
      have hjr : j ∉ rest := (List.nodup_cons.mp hnd).1
      have hndr : rest.Nodup := (List.nodup_cons.mp hnd).2
      show (applyAll f rest (setBlock ar j f)).getD i dB = _
      rw [ih (setBlock ar j f) i hndr, length_setBlock, getD_setBlock]
      by_cases hir : i ∈ rest
      · have hij : i ≠ j := fun he => hjr (he ▸ hir)
        by_cases hlt : i < ar.length
        · simp [hir, hlt, hij, List.mem_cons]
        · simp [hir, hlt, hij]
      · by_cases hij : i = j
        · subst hij
          by_cases hlt : i < ar.length
          · simp [hir, hlt, List.mem_cons]
          · simp [hir, hlt]
        · simp [hir, hij, List.mem_cons, Ne.symm hij]

theorem applyAll_rel (f : DUBlock → DUBlock) (R : DUBlock → DUBlock → Prop)
    (hrefl : ∀ b, R b b) (htrans : ∀ a b c, R a b → R b c → R a c)
    (hf : ∀ b, R b (f b)) :
    ∀ (idxs : List Nat) (ar : List DUBlock) (i : Nat),
      R (ar.getD i dB) ((applyAll f idxs ar).getD i dB) := by
  intro idxs
  induction idxs with
  | nil => intro ar i; exact hrefl _
  | cons j rest ih =>
      intro ar i
      have hstep : R (ar.getD i dB) ((setBlock ar j f).getD i dB) := by
        rw [getD_setBlock]
        by_cases hc : i = j ∧ j < ar.length
        · rw [if_pos hc]; exact hc.1 ▸ hf _
        · rw [if_neg hc]; exact hrefl _
      exact htrans _ _ _ hstep (ih (setBlock ar j f) i)

theorem applyAll_mem_prop (f : DUBlock → DUBlock) (P : DUBlock → Prop)
    (hP : ∀ b, P (f b)) :
    ∀ (idxs : List Nat) (ar : List DUBlock) (i : Nat), i ∈ idxs → i < ar.length →
      P ((applyAll f idxs ar).getD i dB) := by
  intro idxs
  induction idxs with
  | nil => intro ar i h; exact absurd h (List.not_mem_nil i)
  | cons j rest ih =>
      intro ar i hmem hlt
      show P ((applyAll f rest (setBlock ar j f)).getD i dB)
      by_cases hir : i ∈ rest
      · exact ih (setBlock ar j f) i hir (by rw [length_setBlock]; exact hlt)
      · have hij : i = j := by
          rcases List.mem_cons.mp hmem with h | h
          · exact h
          · exact absurd h hir
        subst hij
        rw [applyAll_getD_nmem f rest _ i hir, getD_setBlock, if_pos ⟨rfl, hlt⟩]
        exact hP _

/-! ### The simplifier -/

theorem foldl_simplifyStep :
    ∀ (ls : List Line) (acc : List Line) (last : Option Line),
      (ls.foldl simplifyStep (acc, last)).1 = acc ++ simplifySpecGo last ls := by
  intro ls
  induction ls with
  | nil => intro acc last; simp [simplifySpecGo]
  | cons l ls ih =>
      intro acc last
      cases l with
      | defn t s =>
          by_cases hts : some t = s
          · simp only [List.foldl_cons, simplifyStep, if_pos hts, simplifySpecGo]
            exact ih acc last
          · simp only [List.foldl_cons, simplifyStep, if_neg hts, simplifySpecGo]
            rw [ih (acc ++ [Line.defn t s]) (some (Line.defn t s))]
            simp
      | use v =>
          by_cases hl : some (Line.use v) = last
          · simp only [List.foldl_cons, simplifyStep, if_pos hl, simplifySpecGo]
            exact ih acc last
          · simp only [List.foldl_cons, simplifyStep, if_neg hl, simplifySpecGo]
            rw [ih (acc ++ [Line.use v]) (some (Line.use v))]
            simp
      | canthrow =>
          by_cases hl : some Line.canthrow = last
          · simp only [List.foldl_cons, simplifyStep, if_pos hl, simplifySpecGo]
            exact ih acc last
          · simp only [List.foldl_cons, simplifyStep, if_neg hl, simplifySpecGo]
            rw [ih (acc ++ [Line.canthrow]) (some Line.canthrow)]
            simp

theorem simplifyLines_eq_spec (ls : List Line) : simplifyLines ls = simplifySpec ls := by
  simpa [simplifyLines, simplifySpec] using foldl_simplifyStep ls [] none

theorem simplifySpecGo_idem :
    ∀ (ls : List Line) (last : Option Line),
      simplifySpecGo last (simplifySpecGo last ls) = simplifySpecGo last ls := by
  intro ls
  induction ls with
  | nil => intro last; rfl
  | cons l ls ih =>
      intro last
      cases l with
      | defn t s =>
          by_cases hts : some t = s
          · simp only [simplifySpecGo, if_pos hts]
            exact ih last
          · simp only [simplifySpecGo, if_neg hts]
            rw [ih (some (Line.defn t s))]
      | use v =>
          by_cases hl : some (Line.use v) = last
          · simp only [simplifySpecGo, if_pos hl]
            exact ih last
          · simp only [simplifySpecGo, if_neg hl]
            rw [ih (some (Line.use v))]
      | canthrow =>
          by_cases hl : some Line.canthrow = last
          · simp only [simplifySpecGo, if_pos hl]
            exact ih last
          · simp only [simplifySpecGo, if_neg hl]
            rw [ih (some Line.canthrow)]

theorem simplifyLines_idem (ls : List Line) :
    simplifyLines (simplifyLines ls) = simplifyLines ls := by
  rw [simplifyLines_eq_spec, simplifyLines_eq_spec, simplifySpec, simplifySpec,
    simplifySpecGo_idem]

/-- C2 (counterexample): on a block whose events are two identical `def`
events with distinct target and copy source, `simplify` retains both (the
duplicate-collapsing branch is an `elif` that a `def` line never reaches), so
the claim that an exact duplicate of the previous retained event is removed
"of any kind, including Def events" is false. -/
theorem claim_C2_counterexample :
    ((DUGraph.simplify
        { arena := [{ key := 0, lines := [Line.defn 0 (some 1), Line.defn 0 (some 1)] }],
          blocks := [0], entry := 0 }).arena.getD 0 dB).lines =
      [Line.defn 0 (some 1), Line.defn 0 (some 1)] ∧
    ((DUGraph.simplify
        { arena := [{ key := 0, lines := [Line.defn 0 (some 1), Line.defn 0 (some 1)] }],
          blocks := [0], entry := 0 }).arena.getD 0 dB).lines ≠
      [Line.defn 0 (some 1)] := by
  constructor
  · rfl
  · decide

/-- C2 (amended): per block, `simplify()` drops every `Def` whose target
equals its copy source and every non-`Def` event equal to the immediately
preceding retained event (duplicate consecutive `Def` events are retained),
preserving the order of the remaining events; every block of the collection
is rewritten to exactly this and every other arena entry is untouched. -/
theorem claim_C2 (g : DUGraph) (hnd : g.blocks.Nodup) (i : Nat) :
    (g.simplify).arena.getD i dB =
      if i ∈ g.blocks ∧ i < g.arena.length
      then { g.arena.getD i dB with lines := simplifySpec (g.arena.getD i dB).lines }
      else g.arena.getD i dB := by
  show (applyAll _ g.blocks g.arena).getD i dB = _
  rw [applyAll_getD _ g.blocks g.arena i hnd]
  by_cases hc : i ∈ g.blocks ∧ i < g.arena.length
  · rw [if_pos hc, if_pos hc, simplifyLines_eq_spec]
  · rw [if_neg hc, if_neg hc]

/-- A concrete one-block graph exercising the simplifier. -/
def c2wGraph : DUGraph where
  arena := [{ key := 0, lines := [Line.use 3, Line.use 3, Line.defn 2 (some 2), Line.use 3] }]
  blocks := [0]
  entry := 0

/-- Witness for C2 on a concrete graph. -/
theorem claim_C2_witness :
    ([0] : List Nat).Nodup ∧
    (DUGraph.simplify c2wGraph).arena.getD 0 dB = { key := 0, lines := [Line.use 3] } := by
  refine ⟨by decide, ?_⟩
  rw [claim_C2 c2wGraph (by decide) 0]
  decide

/-- C8: `simplify()` is idempotent — applying it twice leaves every block of
the arena with the same contents (in particular the same event log) as
applying it once. -/
theorem claim_C8 (g : DUGraph) (hnd : g.blocks.Nodup) (i : Nat) :
    ((g.simplify).simplify).arena.getD i dB = (g.simplify).arena.getD i dB := by
  show (applyAll _ g.blocks (g.simplify).arena).getD i dB = _
  have hlen : (g.simplify).arena.length = g.arena.length :=
    length_applyAll _ g.blocks g.arena
  rw [applyAll_getD _ g.blocks (g.simplify).arena i hnd, hlen]
  by_cases hc : i ∈ g.blocks ∧ i < g.arena.length
  · rw [if_pos hc]
    show (fun b => { b with lines := simplifyLines b.lines }) ((g.simplify).arena.getD i dB) = _
    have h2 : (g.simplify).arena.getD i dB =
        { g.arena.getD i dB with lines := simplifyLines (g.arena.getD i dB).lines } := by
      show (applyAll _ g.blocks g.arena).getD i dB = _
      rw [applyAll_getD _ g.blocks g.arena i hnd, if_pos hc]
    rw [h2]
    simp [simplifyLines_idem]
  · rw [if_neg hc]

/-- A concrete one-block graph exercising idempotence of the simplifier. -/
def c8wGraph : DUGraph where
  arena := [{ key := 0, lines := [Line.use 3, Line.use 3] }]
  blocks := [0]
  entry := 0

/-- Witness for C8 on a concrete graph. -/
theorem claim_C8_witness :
    ([0] : List Nat).Nodup ∧
    ((DUGraph.simplify (DUGraph.simplify c8wGraph)).arena.getD 0 dB =
      (DUGraph.simplify c8wGraph).arena.getD 0 dB) :=
  ⟨by decide, claim_C8 c8wGraph (by decide) 0⟩

/-! ### The substitution mutator -/

theorem replaceLine_no_mention (old new : Var) (hne : old ≠ new) (l : Line) :
    lineMentions old (replaceLine old new l) = false := by
  cases l with
  | use v =>
      by_cases hv : v = old
      · simp [replaceLine, hv, lineMentions, Ne.symm hne]
      · simp [replaceLine, hv, lineMentions]
  | defn t s =>
      by_cases ht : t = old
      · by_cases hs : s = some old
        · simp [replaceLine, ht, hs, lineMentions, Ne.symm hne]
        · simp only [replaceLine, if_pos ht, if_neg hs, lineMentions]
          simp [Ne.symm hne, hs]
      · by_cases hs : s = some old
        · simp [replaceLine, ht, hs, lineMentions, Ne.symm hne]
        · simp only [replaceLine, if_neg ht, if_neg hs, lineMentions]
          simp [ht, hs]
  | canthrow => rfl

theorem replaceBlock_no_mention (old new : Var) (hne : old ≠ new) (b : DUBlock) :
    ∀ l ∈ (replaceBlock old new b).lines, lineMentions old l = false := by
  intro l hl
  obtain ⟨l0, _, rfl⟩ := List.mem_map.mp hl
  exact replaceLine_no_mention old new hne l0

/-- C7: when `old ≠ new` and `old` is caught by no block of the collection,
`replace` succeeds and afterwards no event of any block of the collection
mentions `old` (as a use, def target or def copy source); when `old` is a
caught exception descriptor of some block of the collection, `replace` fails
(the source assertion) instead of completing. -/
theorem claim_C7 (g : DUGraph) (old new : Var) :
    (old ≠ new → (∀ i ∈ g.blocks, old ∉ (g.arena.getD i dB).caught_excepts) →
      ∃ g2, g.replace old new = some g2 ∧
        ∀ i ∈ g2.blocks, ∀ l ∈ (g2.arena.getD i dB).lines,
          lineMentions old l = false) ∧
    ((∃ i ∈ g.blocks, old ∈ (g.arena.getD i dB).caught_excepts) →
      g.replace old new = none) := by
  constructor
  · intro hne hnc
    have hany : g.blocks.any
        (fun i => decide (old ∈ (g.arena.getD i dB).caught_excepts)) = false := by
      rw [List.any_eq_false]
      intro i hi
      simpa using hnc i hi
    refine ⟨{ g with arena := applyAll (replaceBlock old new) g.blocks g.arena }, ?_, ?_⟩
    · rw [DUGraph.replace, if_neg hne, hany]
      rfl
    · intro i hi l hl
      change i ∈ g.blocks at hi
      change l ∈ ((applyAll (replaceBlock old new) g.blocks g.arena).getD i dB).lines at hl
      by_cases hlt : i < g.arena.length
      · exact applyAll_mem_prop (replaceBlock old new)
          (fun b => ∀ l2 ∈ b.lines, lineMentions old l2 = false)
          (fun b => replaceBlock_no_mention old new hne b)
          g.blocks g.arena i hi hlt l hl
      · rw [getD_out_of_range _ i
            (by rw [length_applyAll]; exact Nat.le_of_not_lt hlt)] at hl
        simp [dB] at hl
  · intro hex
    by_cases hne : old = new
    · rw [DUGraph.replace, if_pos hne]
    · have hany : g.blocks.any
          (fun i => decide (old ∈ (g.arena.getD i dB).caught_excepts)) = true := by
        rw [List.any_eq_true]
        obtain ⟨i, hi, hc⟩ := hex
        exact ⟨i, hi, by simpa using hc⟩
      rw [DUGraph.replace, if_neg hne, hany]
      simp

/-- A concrete two-block graph exercising substitution. -/
def c7wGraph : DUGraph where
  arena := [{ key := 0, lines := [Line.use 4, Line.defn 4 (some 4), Line.canthrow] },
            { key := 1, caught_excepts := [9], lines := [Line.use 9, Line.use 5] }]
  blocks := [0, 1]
  entry := 0

/-- Witness for C7: both conjuncts applied at concrete inputs. -/
theorem claim_C7_witness :
    ((4 : Var) ≠ 6 ∧
      ∃ g2, c7wGraph.replace 4 6 = some g2 ∧
        ∀ i ∈ g2.blocks, ∀ l ∈ (g2.arena.getD i dB).lines,
          lineMentions 4 l = false) ∧
    c7wGraph.replace 9 6 = none := by
  constructor
  · refine ⟨by decide, ?_⟩
    exact (claim_C7 c7wGraph 4 6).1 (by decide) (by decide)
  · exact (claim_C7 c7wGraph 9 6).2 ⟨1, by decide, by decide⟩

/-! ### The substitution frame (C10) -/

/-- Is a line the `canthrow` marker? -/
def isCanthrow : Line → Bool
  | .canthrow => true
  | _ => false

/-- The frame relation preserved by `replace`: everything except the identity
of the variables inside use/def events. -/
def FrameEq (b b2 : DUBlock) : Prop :=
  b2.key = b.key ∧ b2.caught_excepts = b.caught_excepts ∧
  b2.n_successors = b.n_successors ∧ b2.e_successors = b.e_successors ∧
  b2.lines.length = b.lines.length ∧
  b2.lines.map isCanthrow = b.lines.map isCanthrow

theorem frameEq_refl (b : DUBlock) : FrameEq b b :=
  ⟨rfl, rfl, rfl, rfl, rfl, rfl⟩

theorem frameEq_trans (a b c : DUBlock) (h1 : FrameEq a b) (h2 : FrameEq b c) :
    FrameEq a c := by
  obtain ⟨k1, c1, n1, e1, l1, m1⟩ := h1
  obtain ⟨k2, c2, n2, e2, l2, m2⟩ := h2
  exact ⟨k2.trans k1, c2.trans c1, n2.trans n1, e2.trans e1, l2.trans l1, m2.trans m1⟩

theorem replaceLine_isCanthrow (old new : Var) (l : Line) :
    isCanthrow (replaceLine old new l) = isCanthrow l := by
  cases l with
  | use v => by_cases hv : v = old <;> simp [replaceLine, hv, isCanthrow]
  | defn t s => simp [replaceLine, isCanthrow]
  | canthrow => rfl

theorem replaceBlock_frameEq (old new : Var) (b : DUBlock) :
    FrameEq b (replaceBlock old new b) := by
  refine ⟨rfl, rfl, rfl, rfl, by simp [replaceBlock], ?_⟩
  show (b.lines.map (replaceLine old new)).map isCanthrow = _
  rw [List.map_map]
  exact List.map_congr_left (fun l _ => replaceLine_isCanthrow old new l)

/-- C10: a successful `replace` changes only the variables inside use/def
events: every arena entry keeps its key, caught exception descriptors, both
successor lists, the number and order of its events, and the position of
every `CanThrow` event; the block collection and the entry are untouched. -/
theorem claim_C10 (g : DUGraph) (old new : Var) (g2 : DUGraph)
    (h : g.replace old new = some g2) :
    g2.blocks = g.blocks ∧ g2.entry = g.entry ∧
    ∀ i, FrameEq (g.arena.getD i dB) (g2.arena.getD i dB) := by
  have hg2 : g2 = { g with arena := applyAll (replaceBlock old new) g.blocks g.arena } := by
    by_cases hne : old = new
    · rw [DUGraph.replace, if_pos hne] at h
      exact absurd h (by simp)
    · rw [DUGraph.replace, if_neg hne] at h
      by_cases hany : g.blocks.any
          (fun i => decide (old ∈ (g.arena.getD i dB).caught_excepts)) = true
      · rw [if_pos hany] at h
        exact absurd h (by simp)
      · rw [if_neg hany] at h
        exact (Option.some_inj.mp h).symm
  subst hg2
  refine ⟨rfl, rfl, fun i => ?_⟩
  exact applyAll_rel (replaceBlock old new) FrameEq frameEq_refl frameEq_trans
    (replaceBlock_frameEq old new) g.blocks g.arena i

/-- Witness for C10 at a concrete substitution. -/
theorem claim_C10_witness :
    c7wGraph.replace 4 6 =
      some { arena := [{ key := 0, lines := [Line.use 6, Line.defn 6 (some 6), Line.canthrow] },
                       { key := 1, caught_excepts := [9], lines := [Line.use 9, Line.use 5] }],
             blocks := [0, 1], entry := 0 } ∧
    FrameEq (c7wGraph.arena.getD 0 dB)
      ((applyAll (replaceBlock 4 6) c7wGraph.blocks c7wGraph.arena).getD 0 dB) := by
  constructor
  · decide
  · have h := claim_C10 c7wGraph 4 6
      { arena := applyAll (replaceBlock 4 6) c7wGraph.blocks c7wGraph.arena,
        blocks := c7wGraph.blocks, entry := c7wGraph.entry } (by decide)
    exact h.2.2 0

/-! ### The expression event classifier (C4, C5) -/

/-- C4: for a division or modulo expression, `visitExpr` appends a trailing
`canthrow` event after the operands' events exactly when the operation is not
a floating point one (the static type the source consults is the operation's
result type `expr.dtype`, which under Java numeric promotion is floating
exactly when one of the operands is). -/
theorem claim_C4 (opstr : String) (dtype : JTy) (ps : List Expr)
    (lines : List Line) (h : opstr = "/" ∨ opstr = "%") :
    visitExpr (.binaryInfix opstr dtype ps) lines =
      if dtype = JTy.FloatTT ∨ dtype = JTy.DoubleTT
      then visitList ps lines
      else visitList ps lines ++ [Line.canthrow] := by
  show addThrow (.binaryInfix opstr dtype ps) (visitList ps lines) = _
  rw [addThrow]
  show (if canThrow (.binaryInfix opstr dtype ps) = true then _ else _) = _
  rw [canThrow]
  cases dtype <;> simp [if_pos h]

/-- Witness for C4: integer division appends the marker, double division does
not. -/
theorem claim_C4_witness :
    (("/" : String) = "/" ∨ ("/" : String) = "%") ∧
    visitExpr (.binaryInfix "/" JTy.IntTT [Expr.local_ 1, Expr.local_ 2]) [] =
      [Line.use 1, Line.use 2, Line.canthrow] ∧
    visitExpr (.binaryInfix "/" JTy.DoubleTT [Expr.local_ 1, Expr.local_ 2]) [] =
      [Line.use 1, Line.use 2] := by
  refine ⟨Or.inl rfl, ?_, ?_⟩
  · rw [claim_C4 "/" JTy.IntTT [Expr.local_ 1, Expr.local_ 2] [] (Or.inl rfl)]
    decide
  · rw [claim_C4 "/" JTy.DoubleTT [Expr.local_ 1, Expr.local_ 2] [] (Or.inl rfl)]
    decide

/-- C5: an assignment whose left hand side is not a plain variable visits the
left hand side first and then the right hand side, appending no `def`; an
assignment whose left hand side is the plain variable `v` emits no use event
for `v`, visits only the right hand side, and then appends exactly one
`Def(v, source)` where `source` is the right hand side's variable identity if
the right hand side is a bare variable reference and absent otherwise. -/
theorem claim_C5 (lhsE rhsE : Expr) (lines : List Line) :
    ((∀ v, lhsE ≠ Expr.local_ v) →
      visitExpr (.assignment lhsE rhsE) lines = visitExpr rhsE (visitExpr lhsE lines)) ∧
    (∀ v, lhsE = Expr.local_ v →
      visitExpr (.assignment lhsE rhsE) lines =
        visitExpr rhsE lines ++
          [Line.defn v (match rhsE with | Expr.local_ w => some w | _ => none)]) := by
  constructor
  · intro hnl
    have hv : varOrNone lhsE = none := by
      cases lhsE
      case local_ v => exact absurd rfl (hnl v)
      all_goals rfl
    show addThrow _ _ = _
    rw [addThrow]
    simp only [canThrow, if_neg, Bool.false_eq_true, if_false]
    rw [hv]
    simp
  · rintro v rfl
    show addThrow _ _ = _
    rw [addThrow]
    simp only [canThrow, Bool.false_eq_true, if_false]
    show (match varOrNone (Expr.local_ v) with
      | some t => visitExpr rhsE (if varOrNone (Expr.local_ v) = none
          then visitExpr (Expr.local_ v) lines else lines) ++
            [Line.defn t (varOrNone rhsE)]
      | none => visitExpr rhsE (if varOrNone (Expr.local_ v) = none
          then visitExpr (Expr.local_ v) lines else lines)) = _
    rw [varOrNone]
    simp only [reduceCtorEq, if_neg, Option.some.injEq]
    have : varOrNone rhsE =
        (match rhsE with | Expr.local_ w => some w | _ => none) := by
      cases rhsE <;> rfl
    rw [this]
    simp

/-- Witness for C5: a compound left hand side (array access) and a plain
variable left hand side. -/
theorem claim_C5_witness :
    visitExpr (.assignment (.arrayAccess [.local_ 1, .local_ 2]) (.local_ 3)) [] =
      visitExpr (.local_ 3) (visitExpr (.arrayAccess [.local_ 1, .local_ 2]) []) ∧
    visitExpr (.assignment (.local_ 4) (.local_ 3)) [] =
      visitExpr (.local_ 3) [] ++ [Line.defn 4 (some 3)] := by
  constructor
  · exact (claim_C5 (.arrayAccess [.local_ 1, .local_ 2]) (.local_ 3) []).1
      (fun v h => by cases h)
  · exact (claim_C5 (.local_ 4) (.local_ 3) []).2 4 rfl

/-! ### C1: the missing fallthrough registration -/

/-- A one-armed if: `if (v5) { v7 = <literal>; }` inside a root scope, with
break key 2 as the statement's exit. -/
def c1tree : Scope :=
  .mk 0 none
    [ .ifStmt (some (.local_ 5)) (some 2)
        [ .mk 1 (some 2) [.expressionStmt (some (.assignment (.local_ 7) .literal))] ] ]

/-- C1 (evaluation at the failing input): on a one-armed if, the traversal
creates the exit block (key 2, at arena index 2), but the block current at the
if statement (index 0) gets normal successors `[1]` only — it is never
registered as a pending predecessor of the break key, so the fallthrough edge
`0 → 2` required by the claim is absent.  The source computes the fallthrough
jump list (`jumps`, `ft`) but never reads it. -/
theorem claim_C1_eval :
    (makeCFG c1tree).map
      (fun g => ((g.arena.getD 0 dB).n_successors, (g.arena.getD 2 dB).key,
        g.arena.length)) = some ([1], 2, 3) := by
  decide

/-! ### C9: finalizer reachability -/

theorem subset_reachIter (ar : List DUBlock) :
    ∀ (n : Nat) (vis : List Nat), vis ⊆ reachIter ar n vis := by
  intro n
  induction n with
  | zero => intro vis x hx; exact hx
  | succ n ih =>
      intro vis x hx
      exact ih (expandR ar vis) (List.mem_append_left _ hx)

theorem reach_of_mem_expandR (ar : List DUBlock) (s : Nat) (vis : List Nat)
    (hvis : ∀ x ∈ vis, Reach ar s x) :
    ∀ x ∈ expandR ar vis, Reach ar s x := by
  intro x hx
  rcases List.mem_append.mp hx with h | h
  · exact hvis x h
  · have hpred := List.of_mem_filter h
    have hx2 := of_decide_eq_true hpred
    obtain ⟨_, j, hj, hsucc⟩ := hx2
    exact Reach.step (hvis j hj) hsucc (List.mem_range.mp (List.mem_of_mem_filter h))

theorem reach_of_mem_reachIter (ar : List DUBlock) (s : Nat) :
    ∀ (n : Nat) (vis : List Nat), (∀ x ∈ vis, Reach ar s x) →
      ∀ x ∈ reachIter ar n vis, Reach ar s x := by
  intro n
  induction n with
  | zero => intro vis hvis x hx; exact hvis x hx
  | succ n ih =>
      intro vis hvis x hx
      exact ih (expandR ar vis) (reach_of_mem_expandR ar s vis hvis) x hx

theorem reachIter_of_fix (ar : List DUBlock) :
    ∀ (n : Nat) (vis : List Nat), expandR ar vis = vis → reachIter ar n vis = vis := by
  intro n
  induction n with
  | zero => intro vis _; rfl
  | succ n ih =>
      intro vis hfix
      show reachIter ar n (expandR ar vis) = vis
      rw [hfix]
      exact ih vis hfix

/-- Number of in-range indices not yet visited. -/
def missingCount (len : Nat) (vis : List Nat) : Nat :=
  ((List.range len).filter (fun i => decide (i ∉ vis))).length

theorem missingCount_lt_of_ne (ar : List DUBlock) (vis : List Nat)
    (hne : expandR ar vis ≠ vis) :
    missingCount ar.length (expandR ar vis) < missingCount ar.length vis := by
  have hsub : ∀ a, (decide (a ∉ expandR ar vis) = true) → (decide (a ∉ vis) = true) := by
    intro a ha
    have h2 := of_decide_eq_true ha
    exact decide_eq_true (fun hm => h2 (List.mem_append_left _ hm))
  have hsl := List.monotone_filter_right (List.range ar.length) hsub
  rcases htl : (List.range ar.length).filter
      (fun i => decide (i ∉ vis ∧ ∃ j ∈ vis, i ∈ succsOf ar j)) with _ | ⟨a, t⟩
  · refine absurd ?_ hne
    rw [expandR, htl, List.append_nil]
  · have ha : a ∈ (List.range ar.length).filter
        (fun i => decide (i ∉ vis ∧ ∃ j ∈ vis, i ∈ succsOf ar j)) := by
      rw [htl]; exact List.mem_cons_self a t
    have haR : a ∈ List.range ar.length := (List.mem_filter.mp ha).1
    have haP := of_decide_eq_true (List.mem_filter.mp ha).2
    have haV : a ∉ vis := haP.1
    have haE : a ∈ expandR ar vis := by
      exact List.mem_append_right _ ha
    have hin : a ∈ (List.range ar.length).filter (fun i => decide (i ∉ vis)) :=
      List.mem_filter_of_mem haR (decide_eq_true haV)
    have hnin : a ∉ (List.range ar.length).filter (fun i => decide (i ∉ expandR ar vis)) := by
      intro hmem
      exact (of_decide_eq_true (List.mem_filter.mp hmem).2) haE
    rcases Nat.lt_or_ge (missingCount ar.length (expandR ar vis))
        (missingCount ar.length vis) with h | h
    · exact h
    · exfalso
      have heq := List.Sublist.eq_of_length_le hsl h
      exact hnin (heq ▸ hin)

theorem expandR_reachIter_fix (ar : List DUBlock) :
    ∀ (n : Nat) (vis : List Nat), missingCount ar.length vis ≤ n →
      expandR ar (reachIter ar n vis) = reachIter ar n vis := by
  intro n
  induction n with
  | zero =>
      intro vis h0
      have hnil : (List.range ar.length).filter (fun i => decide (i ∉ vis)) = [] :=
        List.length_eq_zero.mp (Nat.le_zero.mp h0)
      show expandR ar vis = vis
      have : (List.range ar.length).filter
          (fun i => decide (i ∉ vis ∧ ∃ j ∈ vis, i ∈ succsOf ar j)) = [] := by
        rw [List.filter_eq_nil_iff]
        intro a haR
        intro hpred
        have hp := of_decide_eq_true hpred
        have : a ∈ (List.range ar.length).filter (fun i => decide (i ∉ vis)) :=
          List.mem_filter_of_mem haR (decide_eq_true hp.1)
        rw [hnil] at this
        exact List.not_mem_nil a this
      rw [expandR, this, List.append_nil]
  | succ n ih =>
      intro vis hle
      by_cases hfix : expandR ar vis = vis
      · have h1 : reachIter ar (n + 1) vis = vis := reachIter_of_fix ar (n + 1) vis hfix
        rw [h1]
        exact hfix
      · show expandR ar (reachIter ar n (expandR ar vis)) = reachIter ar n (expandR ar vis)
        refine ih (expandR ar vis) ?_
        have := missingCount_lt_of_ne ar vis hfix
        omega

/-- C9: after `makeCFG` the graph's block collection contains exactly the
arena indices reachable from the entry block over normal and exceptional
successor edges, and the entry is the first block the traversal materialized
(arena index 0). -/
theorem claim_C9 (root : Scope) (g : DUGraph) (h : makeCFG root = some g) :
    g.entry = 0 ∧ ∀ i, (i ∈ g.blocks ↔ Reach g.arena 0 i) := by
  rw [makeCFG] at h
  rcases hv : visitScope root false initState [] none with _ | st
  · rw [hv] at h
    exact absurd h (by simp)
  · rw [hv] at h
    have hg : g = { arena := st.blocks, blocks := reachFrom st.blocks [0], entry := 0 } :=
      (Option.some_inj.mp h).symm
    subst hg
    refine ⟨rfl, fun i => ⟨?_, ?_⟩⟩
    · intro hi
      refine reach_of_mem_reachIter st.blocks 0 st.blocks.length [0] ?_ i hi
      intro x hx
      have : x = 0 := by
        rcases List.mem_singleton.mp hx with h
        exact h
      exact this ▸ Reach.refl
    · intro hr
      have hfix : expandR st.blocks (reachFrom st.blocks [0]) = reachFrom st.blocks [0] := by
        refine expandR_reachIter_fix st.blocks st.blocks.length [0] ?_
        unfold missingCount
        calc ((List.range st.blocks.length).filter
              (fun i => decide (i ∉ ([0] : List Nat)))).length
            ≤ (List.range st.blocks.length).length := List.length_filter_le _ _
          _ = st.blocks.length := List.length_range _
      induction hr with
      | refl => exact subset_reachIter st.blocks st.blocks.length [0] (List.mem_singleton.mpr rfl)
      | @step j k hj hsucc hlt ihj =>
          have hjF := ihj
          by_cases hkF : k ∈ reachFrom st.blocks [0]
          · exact hkF
          · have : k ∈ expandR st.blocks (reachFrom st.blocks [0]) := by
              refine List.mem_append_right _ ?_
              refine List.mem_filter_of_mem (List.mem_range.mpr hlt) ?_
              exact decide_eq_true ⟨hkF, j, hjF, hsucc⟩
            rw [hfix] at this
            exact this

/-! ### C9 witness -/

/-- A minimal root scope. -/
def c9tree : Scope := .mk 0 none []

/-- Witness for C9: the minimal traversal keeps exactly its entry block. -/
theorem claim_C9_witness :
    makeCFG c9tree = some { arena := [{ key := 0 }], blocks := [0], entry := 0 } ∧
    (0 : Nat) ∈ ({ arena := [{ key := 0 }], blocks := [0], entry := 0 } : DUGraph).blocks := by
  refine ⟨by decide, ?_⟩
  exact ((claim_C9 c9tree _ (by decide)).2 0).mpr Reach.refl

/-! ### Pointwise lemmas about the traversal primitives -/

theorem getD_append_one (bs : List DUBlock) (b : DUBlock) (j : Nat) :
    (bs ++ [b]).getD j dB = if j = bs.length then b else bs.getD j dB := by
  by_cases hj : j = bs.length
  · subst hj
    simp [List.getD_eq_getElem?_getD]
  · rw [if_neg hj]
    rcases Nat.lt_or_ge j bs.length with hlt | hge
    · simp [List.getD_eq_getElem?_getD, List.getElem?_append, hlt]
    · have hgt : bs.length < j := Nat.lt_of_le_of_ne hge (fun he => hj he.symm)
      rw [getD_out_of_range _ j (by simp; omega), getD_out_of_range _ j (Nat.le_of_lt hgt)]

theorem lt_of_canthrow_mem (bs : List DUBlock) (j : Nat)
    (h : Line.canthrow ∈ (bs.getD j dB).lines) : j < bs.length := by
  by_contra hge
  rw [getD_out_of_range _ j (Nat.le_of_not_lt hge)] at h
  simp [dB] at h

theorem lt_of_caught_ne (bs : List DUBlock) (j : Nat)
    (h : (bs.getD j dB).caught_excepts ≠ []) : j < bs.length := by
  by_contra hge
  rw [getD_out_of_range _ j (Nat.le_of_not_lt hge)] at h
  simp [dB] at h

theorem lt_of_esucc_mem (bs : List DUBlock) (j x : Nat)
    (h : x ∈ (bs.getD j dB).e_successors) : j < bs.length := by
  by_contra hge
  rw [getD_out_of_range _ j (Nat.le_of_not_lt hge)] at h
  simp [dB] at h

theorem foldl_nsucc_spec (idx : Nat) :
    ∀ (ps : List Nat) (bs : List DUBlock),
      (ps.foldl (fun bs2 p => setBlock bs2 p
          (fun b => { b with n_successors := b.n_successors ++ [idx] })) bs).length =
        bs.length ∧
      ∀ j,
        ((ps.foldl (fun bs2 p => setBlock bs2 p
            (fun b => { b with n_successors := b.n_successors ++ [idx] })) bs).getD j dB).lines =
          (bs.getD j dB).lines ∧
        ((ps.foldl (fun bs2 p => setBlock bs2 p
            (fun b => { b with n_successors := b.n_successors ++ [idx] })) bs).getD j dB).caught_excepts =
          (bs.getD j dB).caught_excepts ∧
        ((ps.foldl (fun bs2 p => setBlock bs2 p
            (fun b => { b with n_successors := b.n_successors ++ [idx] })) bs).getD j dB).e_successors =
          (bs.getD j dB).e_successors := by
  intro ps
  induction ps with
  | nil => intro bs; exact ⟨rfl, fun j => ⟨rfl, rfl, rfl⟩⟩
  | cons p ps ih =>
      intro bs
      simp only [List.foldl_cons]
      have hmid := ih (setBlock bs p
        (fun b => { b with n_successors := b.n_successors ++ [idx] }))
      refine ⟨by rw [hmid.1, length_setBlock], fun j => ?_⟩
      have h2 := hmid.2 j
      have hset : ((setBlock bs p
          (fun b => { b with n_successors := b.n_successors ++ [idx] })).getD j dB).lines =
            (bs.getD j dB).lines ∧
          ((setBlock bs p
          (fun b => { b with n_successors := b.n_successors ++ [idx] })).getD j dB).caught_excepts =
            (bs.getD j dB).caught_excepts ∧
          ((setBlock bs p
          (fun b => { b with n_successors := b.n_successors ++ [idx] })).getD j dB).e_successors =
            (bs.getD j dB).e_successors := by
        rw [getD_setBlock]
        by_cases hc : j = p ∧ p < bs.length
        · rw [if_pos hc]
          obtain ⟨rfl, _⟩ := hc
          exact ⟨rfl, rfl, rfl⟩
        · rw [if_neg hc]
          exact ⟨rfl, rfl, rfl⟩
      exact ⟨h2.1.trans hset.1, h2.2.1.trans hset.2.1, h2.2.2.trans hset.2.2⟩

theorem foldl_esucc_spec (idx : Nat) :
    ∀ (ps : List Nat) (bs : List DUBlock),
      (ps.foldl (fun bs2 p => setBlock bs2 p
          (fun b => { b with e_successors := b.e_successors ++ [idx] })) bs).length =
        bs.length ∧
      ∀ j,
        ((ps.foldl (fun bs2 p => setBlock bs2 p
            (fun b => { b with e_successors := b.e_successors ++ [idx] })) bs).getD j dB).lines =
          (bs.getD j dB).lines ∧
        ((ps.foldl (fun bs2 p => setBlock bs2 p
            (fun b => { b with e_successors := b.e_successors ++ [idx] })) bs).getD j dB).caught_excepts =
          (bs.getD j dB).caught_excepts ∧
        ((ps.foldl (fun bs2 p => setBlock bs2 p
            (fun b => { b with e_successors := b.e_successors ++ [idx] })) bs).getD j dB).n_successors =
          (bs.getD j dB).n_successors ∧
        ∀ x, x ∈ ((ps.foldl (fun bs2 p => setBlock bs2 p
            (fun b => { b with e_successors := b.e_successors ++ [idx] })) bs).getD j dB).e_successors →
          x ∈ (bs.getD j dB).e_successors ∨ (x = idx ∧ j ∈ ps) := by
  intro ps
  induction ps with
  | nil => intro bs; exact ⟨rfl, fun j => ⟨rfl, rfl, rfl, fun x hx => Or.inl hx⟩⟩
  | cons p ps ih =>
      intro bs
      simp only [List.foldl_cons]
      have hmid := ih (setBlock bs p
        (fun b => { b with e_successors := b.e_successors ++ [idx] }))
      refine ⟨by rw [hmid.1, length_setBlock], fun j => ?_⟩
      have h2 := hmid.2 j
      have hsetl : ((setBlock bs p
          (fun b => { b with e_successors := b.e_successors ++ [idx] })).getD j dB).lines =
            (bs.getD j dB).lines ∧
          ((setBlock bs p
          (fun b => { b with e_successors := b.e_successors ++ [idx] })).getD j dB).caught_excepts =
            (bs.getD j dB).caught_excepts ∧
          ((setBlock bs p
          (fun b => { b with e_successors := b.e_successors ++ [idx] })).getD j dB).n_successors =
            (bs.getD j dB).n_successors := by
        rw [getD_setBlock]
        by_cases hc : j = p ∧ p < bs.length
        · rw [if_pos hc]
          obtain ⟨rfl, _⟩ := hc
          exact ⟨rfl, rfl, rfl⟩
        · rw [if_neg hc]
          exact ⟨rfl, rfl, rfl⟩
      refine ⟨h2.1.trans hsetl.1, h2.2.1.trans hsetl.2.1, h2.2.2.1.trans hsetl.2.2, ?_⟩
      intro x hx
      rcases h2.2.2.2 x hx with hmem | hnew
      · rw [getD_setBlock] at hmem
        by_cases hc : j = p ∧ p < bs.length
        · obtain ⟨rfl, hplt⟩ := hc
          rw [if_pos ⟨rfl, hplt⟩] at hmem
          rcases List.mem_append.mp hmem with hold | hidx
          · exact Or.inl hold
          · exact Or.inr ⟨List.mem_singleton.mp hidx, List.mem_cons_self j ps⟩
        · rw [if_neg hc] at hmem
          exact Or.inl hmem
      · exact Or.inr ⟨hnew.1, List.mem_cons_of_mem p hnew.2⟩

/-- Caught-exception tuple a new block receives from the optional catch
parameters. -/
def cmCaught : Option (Var × List Nat) → List Var
  | none => []
  | some (ce, _) => [ce]

theorem makeBlock_spec (key : Key) (st : TState) (cm : Option (Var × List Nat))
    (st2 : TState) (idx : Nat) (h : makeBlock key st cm = some (st2, idx)) :
    idx = st.blocks.length ∧
    st2.accums = st.accums ∧
    st2.blocks.length = st.blocks.length + 1 ∧
    (∀ j, (st2.blocks.getD j dB).lines =
        (if j = idx then [] else (st.blocks.getD j dB).lines)) ∧
    (∀ j, (st2.blocks.getD j dB).caught_excepts =
        (if j = idx then cmCaught cm else (st.blocks.getD j dB).caught_excepts)) ∧
    (∀ j x, x ∈ (st2.blocks.getD j dB).e_successors →
        x ∈ (st.blocks.getD j dB).e_successors ∨
          (x = idx ∧ ∃ ce ep, cm = some (ce, ep) ∧ j ∈ ep)) := by
  rw [makeBlock] at h
  rcases hall : allSome (st.bd key) with _ | parents
  · rw [hall] at h
    exact absurd h (by simp)
  · rw [hall] at h
    have hb1 : ∀ j, (st.blocks ++ [{ key := key }] : List DUBlock).getD j dB =
        if j = st.blocks.length then { key := key } else st.blocks.getD j dB :=
      fun j => getD_append_one st.blocks { key := key } j
    rcases cm with _ | ⟨ce, ep⟩
    · simp only [Option.some_inj, Prod.mk.injEq] at h
      obtain ⟨hst, hidx⟩ := h
      subst hidx
      obtain rfl := hst.symm
      have hfold := foldl_nsucc_spec st.blocks.length parents (st.blocks ++ [{ key := key }])
      refine ⟨rfl, rfl, ?_, ?_, ?_, ?_⟩
      · dsimp only
        rw [hfold.1]
        simp
      · intro j
        dsimp only
        rw [(hfold.2 j).1, hb1 j]
        by_cases hj : j = st.blocks.length
        · rw [if_pos hj, if_pos hj]
        · rw [if_neg hj, if_neg hj]
      · intro j
        dsimp only
        rw [(hfold.2 j).2.1, hb1 j]
        by_cases hj : j = st.blocks.length
        · rw [if_pos hj, if_pos hj]
          rfl
        · rw [if_neg hj, if_neg hj]
      · intro j x hx
        dsimp only at hx
        rw [(hfold.2 j).2.2, hb1 j] at hx
        by_cases hj : j = st.blocks.length
        · rw [if_pos hj] at hx
          simp [dB] at hx
        · rw [if_neg hj] at hx
          exact Or.inl hx
    · simp only [Option.some_inj, Prod.mk.injEq] at h
      obtain ⟨hst, hidx⟩ := h
      subst hidx
      obtain rfl := hst.symm
      have hfold := foldl_nsucc_spec st.blocks.length parents (st.blocks ++ [{ key := key }])
      have hlen1 : (parents.foldl (fun bs p => setBlock bs p
          (fun b => { b with n_successors := b.n_successors ++ [st.blocks.length] }))
          (st.blocks ++ [{ key := key }])).length = st.blocks.length + 1 := by
        rw [hfold.1]
        simp
      have hbf : ∀ j,
          ((parents.foldl (fun bs p => setBlock bs p
              (fun b => { b with n_successors := b.n_successors ++ [st.blocks.length] }))
              (st.blocks ++ [{ key := key }])).getD j dB).lines =
            (if j = st.blocks.length then [] else (st.blocks.getD j dB).lines) ∧
          ((parents.foldl (fun bs p => setBlock bs p
              (fun b => { b with n_successors := b.n_successors ++ [st.blocks.length] }))
              (st.blocks ++ [{ key := key }])).getD j dB).caught_excepts =
            (if j = st.blocks.length then [] else (st.blocks.getD j dB).caught_excepts) ∧
          ((parents.foldl (fun bs p => setBlock bs p
              (fun b => { b with n_successors := b.n_successors ++ [st.blocks.length] }))
              (st.blocks ++ [{ key := key }])).getD j dB).e_successors =
            (if j = st.blocks.length then [] else (st.blocks.getD j dB).e_successors) := by
        intro j
        refine ⟨?_, ?_, ?_⟩
        · rw [(hfold.2 j).1, hb1 j]
          by_cases hj : j = st.blocks.length
          · rw [if_pos hj, if_pos hj]
          · rw [if_neg hj, if_neg hj]
        · rw [(hfold.2 j).2.1, hb1 j]
          by_cases hj : j = st.blocks.length
          · rw [if_pos hj, if_pos hj]
          · rw [if_neg hj, if_neg hj]
        · rw [(hfold.2 j).2.2, hb1 j]
          by_cases hj : j = st.blocks.length
          · rw [if_pos hj, if_pos hj]
          · rw [if_neg hj, if_neg hj]
      have hb3 : ∀ j,
          ((setBlock (parents.foldl (fun bs p => setBlock bs p
              (fun b => { b with n_successors := b.n_successors ++ [st.blocks.length] }))
              (st.blocks ++ [{ key := key }])) st.blocks.length
              (fun b => { b with caught_excepts := [ce] })).getD j dB).lines =
            (if j = st.blocks.length then [] else (st.blocks.getD j dB).lines) ∧
          ((setBlock (parents.foldl (fun bs p => setBlock bs p
              (fun b => { b with n_successors := b.n_successors ++ [st.blocks.length] }))
              (st.blocks ++ [{ key := key }])) st.blocks.length
              (fun b => { b with caught_excepts := [ce] })).getD j dB).caught_excepts =
            (if j = st.blocks.length then [ce]
             else (st.blocks.getD j dB).caught_excepts) ∧
          ((setBlock (parents.foldl (fun bs p => setBlock bs p
              (fun b => { b with n_successors := b.n_successors ++ [st.blocks.length] }))
              (st.blocks ++ [{ key := key }])) st.blocks.length
              (fun b => { b with caught_excepts := [ce] })).getD j dB).e_successors =
            (if j = st.blocks.length then [] else (st.blocks.getD j dB).e_successors) := by
        intro j
        rw [getD_setBlock]
        by_cases hj : j = st.blocks.length
        · rw [if_pos ⟨hj, by rw [hlen1]; omega⟩]
          dsimp only
          refine ⟨?_, ?_, ?_⟩
          · rw [(hbf st.blocks.length).1, if_pos rfl, if_pos hj]
          · rw [if_pos hj]
          · rw [(hbf st.blocks.length).2.2, if_pos rfl, if_pos hj]
        · rw [if_neg (fun hc => hj hc.1)]
          refine ⟨?_, ?_, ?_⟩
          · rw [(hbf j).1]
          · rw [(hbf j).2.1, if_neg hj, if_neg hj]
          · rw [(hbf j).2.2]
      have hefold := foldl_esucc_spec st.blocks.length ep
        (setBlock (parents.foldl (fun bs p => setBlock bs p
          (fun b => { b with n_successors := b.n_successors ++ [st.blocks.length] }))
          (st.blocks ++ [{ key := key }])) st.blocks.length
          (fun b => { b with caught_excepts := [ce] }))
      refine ⟨rfl, rfl, ?_, ?_, ?_, ?_⟩
      · dsimp only
        rw [hefold.1, length_setBlock, hlen1]
      · intro j
        dsimp only
        rw [(hefold.2 j).1, (hb3 j).1]
      · intro j
        dsimp only
        rw [(hefold.2 j).2.1, (hb3 j).2.1]
        rfl
      · intro j x hx
        dsimp only at hx
        rcases (hefold.2 j).2.2.2 x hx with hmem | hnew
        · rw [(hb3 j).2.2] at hmem
          by_cases hj : j = st.blocks.length
          · rw [if_pos hj] at hmem
            exact absurd hmem (List.not_mem_nil x)
          · rw [if_neg hj] at hmem
            exact Or.inl hmem
        · exact Or.inr ⟨hnew.1, ce, ep, rfl, hnew.2⟩

theorem finishBlock_spec (c : Nat) (st : TState) (cs : List Nat) :
    (finishBlock c st cs).blocks = st.blocks ∧
    (finishBlock c st cs).bd = st.bd ∧
    ∀ a ∈ (finishBlock c st cs).accums, ∀ i ∈ a,
      (∃ a0 ∈ st.accums, i ∈ a0) ∨
      (i = c ∧ Line.canthrow ∈ (st.blocks.getD c dB).lines) := by
  rw [finishBlock]
  by_cases hct : (st.blocks.getD c dB).canThrow = true
  · rw [if_pos hct]
    refine ⟨rfl, rfl, ?_⟩
    have hcth : Line.canthrow ∈ (st.blocks.getD c dB).lines := by
      have := hct
      rw [DUBlock.canThrow] at this
      exact of_decide_eq_true this
    have hgen : ∀ (cs2 : List Nat) (accs : List (List Nat)),
        (∀ a ∈ accs, ∀ i ∈ a,
          (∃ a0 ∈ st.accums, i ∈ a0) ∨
          (i = c ∧ Line.canthrow ∈ (st.blocks.getD c dB).lines)) →
        ∀ a ∈ cs2.foldl (fun acc i => acc.set i (acc.getD i [] ++ [c])) accs, ∀ i ∈ a,
          (∃ a0 ∈ st.accums, i ∈ a0) ∨
          (i = c ∧ Line.canthrow ∈ (st.blocks.getD c dB).lines) := by
      intro cs2
      induction cs2 with
      | nil => intro accs hacc a ha i hi; exact hacc a ha i hi
      | cons k ks ih =>
          intro accs hacc a ha i hi
          simp only [List.foldl_cons] at ha
          refine ih (accs.set k (accs.getD k [] ++ [c])) ?_ a ha i hi
          intro a2 ha2 i2 hi2
          rcases List.mem_or_eq_of_mem_set ha2 with hold | hnewl
          · exact hacc a2 hold i2 hi2
          · subst hnewl
            rcases List.mem_append.mp hi2 with hig | hic
            · by_cases hk : k < accs.length
              · have : accs.getD k [] ∈ accs := by
                  rw [List.getD_eq_getElem?_getD, List.getElem?_eq_getElem hk]
                  exact List.getElem_mem hk
                exact hacc _ this i2 hig
              · rw [List.getD_eq_default _ _ (Nat.le_of_not_lt hk)] at hig
                exact absurd hig (List.not_mem_nil i2)
            · exact Or.inr ⟨List.mem_singleton.mp hic, hcth⟩
    intro a ha i hi
    exact hgen cs st.accums (fun a0 ha0 i0 hi0 => Or.inl ⟨a0, ha0, hi0⟩) a ha i hi
  · rw [if_neg hct]
    exact ⟨rfl, rfl, fun a ha i hi => Or.inl ⟨a, ha, hi⟩⟩

/-! ### Events are only ever appended -/

theorem addThrow_append (e : Expr) (a b : List Line) :
    addThrow e (a ++ b) = a ++ addThrow e b := by
  rw [addThrow, addThrow]
  by_cases hc : canThrow e = true
  · rw [if_pos hc, if_pos hc, List.append_assoc]
  · rw [if_neg hc, if_neg hc]

mutual

theorem visitExpr_append : ∀ (e : Expr) (ls : List Line),
    visitExpr e ls = ls ++ visitExpr e []
  | .local_ v, ls => by
      show addThrow _ (ls ++ [Line.use v]) = ls ++ addThrow _ ([] ++ [Line.use v])
      rw [List.nil_append, addThrow_append]
  | .literal, ls => by
      have hc : canThrow Expr.literal = false := rfl
      show addThrow _ ls = ls ++ addThrow _ []
      rw [addThrow, addThrow, hc]
      simp
  | .assignment lhsE rhsE, ls => by
      have hc : canThrow (Expr.assignment lhsE rhsE) = false := rfl
      show addThrow _ _ = ls ++ addThrow _ _
      rw [addThrow, addThrow, hc]
      simp only [Bool.false_eq_true, if_false]
      rcases hv : varOrNone lhsE with _ | t
      · dsimp only
        rw [if_pos rfl, if_pos rfl]
        rw [visitExpr_append lhsE ls, visitExpr_append rhsE (ls ++ visitExpr lhsE []),
          visitExpr_append rhsE (visitExpr lhsE [])]
        simp
      · dsimp only
        rw [if_neg (by simp), if_neg (by simp)]
        rw [visitExpr_append rhsE ls]
        simp
  | .binaryInfix opstr dtype ps, ls => by
      show addThrow _ (visitList ps ls) = ls ++ addThrow _ (visitList ps [])
      rw [visitList_append ps ls, addThrow_append]
  | .arrayAccess ps, ls => by
      show addThrow _ (visitList ps ls) = ls ++ addThrow _ (visitList ps [])
      rw [visitList_append ps ls, addThrow_append]
  | .arrayCreation ps, ls => by
      show addThrow _ (visitList ps ls) = ls ++ addThrow _ (visitList ps [])
      rw [visitList_append ps ls, addThrow_append]
  | .cast ps, ls => by
      show addThrow _ (visitList ps ls) = ls ++ addThrow _ (visitList ps [])
      rw [visitList_append ps ls, addThrow_append]
  | .classInstanceCreation ps, ls => by
      show addThrow _ (visitList ps ls) = ls ++ addThrow _ (visitList ps [])
      rw [visitList_append ps ls, addThrow_append]
  | .fieldAccess ps, ls => by
      show addThrow _ (visitList ps ls) = ls ++ addThrow _ (visitList ps [])
      rw [visitList_append ps ls, addThrow_append]
  | .methodInvocation ps, ls => by
      show addThrow _ (visitList ps ls) = ls ++ addThrow _ (visitList ps [])
      rw [visitList_append ps ls, addThrow_append]
  | .other ps, ls => by
      show addThrow _ (visitList ps ls) = ls ++ addThrow _ (visitList ps [])
      rw [visitList_append ps ls, addThrow_append]

theorem visitList_append : ∀ (ps : List Expr) (ls : List Line),
    visitList ps ls = ls ++ visitList ps []
  | [], ls => by
      show ls = ls ++ []
      simp
  | p :: ps, ls => by
      show visitList ps (visitExpr p ls) = ls ++ visitList ps (visitExpr p [])
      rw [visitList_append ps (visitExpr p ls), visitExpr_append p ls,
        visitList_append ps (visitExpr p []), visitExpr_append p ([] : List Line)]
      simp

end

/-! ### The exception-edge invariant (C3) -/

/-- The traversal invariant behind C3: every block registered in a catch
accumulator can throw; every exceptional successor is a block with a caught
exception descriptor (a catch-handler entry); every block with an exceptional
successor can throw. -/
def InvSt (st : TState) : Prop :=
  (∀ a ∈ st.accums, ∀ i ∈ a, Line.canthrow ∈ (st.blocks.getD i dB).lines) ∧
  (∀ j x, x ∈ (st.blocks.getD j dB).e_successors →
      (st.blocks.getD x dB).caught_excepts ≠ []) ∧
  (∀ j, (st.blocks.getD j dB).e_successors ≠ [] →
      Line.canthrow ∈ (st.blocks.getD j dB).lines)

/-- Precondition on the catch parameters of `visitScope`: every registered
throw source can throw. -/
def CMok (st : TState) : Option (Var × List Nat) → Prop
  | none => True
  | some (_, ep) => ∀ p ∈ ep, Line.canthrow ∈ (st.blocks.getD p dB).lines

theorem inv_makeBlock (key : Key) (st : TState) (cm : Option (Var × List Nat))
    (st2 : TState) (idx : Nat) (h : makeBlock key st cm = some (st2, idx))
    (hinv : InvSt st) (hcm : CMok st cm) : InvSt st2 := by
  obtain ⟨hidx, hacc, _, hlines, hcaught, hesucc⟩ := makeBlock_spec key st cm st2 idx h
  obtain ⟨hA, hB, hC⟩ := hinv
  refine ⟨?_, ?_, ?_⟩
  · intro a ha i hi
    rw [hacc] at ha
    have hold := hA a ha i hi
    have hlt : i < st.blocks.length := lt_of_canthrow_mem st.blocks i hold
    rw [hlines i, if_neg (by omega)]
    exact hold
  · intro j x hx
    rcases hesucc j x hx with hold | hnew
    · have hne := hB j x hold
      have hlt : x < st.blocks.length := lt_of_caught_ne st.blocks x hne
      rw [hcaught x, if_neg (by omega)]
      exact hne
    · obtain ⟨hxeq, ce, ep, hcmeq, _⟩ := hnew
      rw [hxeq, hcaught idx, if_pos rfl, hcmeq]
      simp [cmCaught]
  · intro j hne
    rcases List.exists_mem_of_ne_nil _ hne with ⟨x, hx⟩
    rcases hesucc j x hx with hold | hnew
    · have hje : (st.blocks.getD j dB).e_successors ≠ [] := by
        intro hnil
        rw [hnil] at hold
        exact List.not_mem_nil x hold
      have hcth := hC j hje
      have hlt : j < st.blocks.length := lt_of_canthrow_mem st.blocks j hcth
      rw [hlines j, if_neg (by omega)]
      exact hcth
    · obtain ⟨hxeq, ce, ep, hcmeq, hjep⟩ := hnew
      rw [hcmeq] at hcm
      have hcth : Line.canthrow ∈ (st.blocks.getD j dB).lines := hcm j hjep
      have hlt : j < st.blocks.length := lt_of_canthrow_mem st.blocks j hcth
      rw [hlines j, if_neg (by omega)]
      exact hcth

theorem inv_finishBlock (c : Nat) (st : TState) (cs : List Nat)
    (hinv : InvSt st) : InvSt (finishBlock c st cs) := by
  obtain ⟨hbl, _, hmem⟩ := finishBlock_spec c st cs
  obtain ⟨hA, hB, hC⟩ := hinv
  refine ⟨?_, ?_, ?_⟩
  · intro a ha i hi
    rw [hbl]
    rcases hmem a ha i hi with ⟨a0, ha0, hi0⟩ | ⟨rfl, hcth⟩
    · exact hA a0 ha0 i hi0
    · exact hcth
  · intro j x
    rw [hbl]
    exact hB j x
  · intro j
    rw [hbl]
    exact hC j

theorem inv_registerPending (k : Key) (cur : Option Nat) (st : TState)
    (hinv : InvSt st) : InvSt (registerPending k cur st) := hinv

theorem inv_drainLoop (ck : Key) (head : Nat) (st : TState) (st2 : TState)
    (h : drainLoop ck head st = some st2) (hinv : InvSt st) : InvSt st2 := by
  rw [drainLoop] at h
  rcases hall : allSome (st.bd ck) with _ | parents
  · rw [hall] at h
    exact absurd h (by simp)
  · rw [hall] at h
    simp only [Option.some_inj] at h
    obtain rfl := h.symm
    obtain ⟨hA, hB, hC⟩ := hinv
    have hfields : ∀ j,
        ((setBlock st.blocks head (fun b =>
            { b with n_successors := b.n_successors ++ parents })).getD j dB).lines =
          (st.blocks.getD j dB).lines ∧
        ((setBlock st.blocks head (fun b =>
            { b with n_successors := b.n_successors ++ parents })).getD j dB).caught_excepts =
          (st.blocks.getD j dB).caught_excepts ∧
        ((setBlock st.blocks head (fun b =>
            { b with n_successors := b.n_successors ++ parents })).getD j dB).e_successors =
          (st.blocks.getD j dB).e_successors := by
      intro j
      rw [getD_setBlock]
      by_cases hc : j = head ∧ head < st.blocks.length
      · obtain ⟨rfl, hlt⟩ := hc
        rw [if_pos ⟨rfl, hlt⟩]
        exact ⟨rfl, rfl, rfl⟩
      · rw [if_neg hc]
        exact ⟨rfl, rfl, rfl⟩
    refine ⟨?_, ?_, ?_⟩
    · intro a ha i hi
      dsimp only at ha ⊢
      rw [(hfields i).1]
      exact hA a ha i hi
    · intro j x hx
      dsimp only at hx ⊢
      rw [(hfields j).2.2] at hx
      rw [(hfields x).2.1]
      exact hB j x hx
    · intro j hne
      dsimp only at hne ⊢
      rw [(hfields j).2.2] at hne
      rw [(hfields j).1]
      exact hC j hne

theorem inv_appendLines (c : Nat) (f : List Line → List Line) (st : TState)
    (hf : ∀ ls, ∃ ext, f ls = ls ++ ext) (hinv : InvSt st) :
    InvSt (appendLines c f st) := by
  obtain ⟨hA, hB, hC⟩ := hinv
  have hfields : ∀ j,
      ((setBlock st.blocks c (fun b => { b with lines := f b.lines })).getD j dB).caught_excepts =
        (st.blocks.getD j dB).caught_excepts ∧
      ((setBlock st.blocks c (fun b => { b with lines := f b.lines })).getD j dB).e_successors =
        (st.blocks.getD j dB).e_successors ∧
      ∀ l, l ∈ (st.blocks.getD j dB).lines →
        l ∈ ((setBlock st.blocks c (fun b => { b with lines := f b.lines })).getD j dB).lines := by
    intro j
    rw [getD_setBlock]
    by_cases hc : j = c ∧ c < st.blocks.length
    · obtain ⟨rfl, hlt⟩ := hc
      rw [if_pos ⟨rfl, hlt⟩]
      refine ⟨rfl, rfl, ?_⟩
      intro l hl
      obtain ⟨ext, hext⟩ := hf (st.blocks.getD j dB).lines
      show l ∈ f (st.blocks.getD j dB).lines
      rw [hext]
      exact List.mem_append_left _ hl
    · rw [if_neg hc]
      exact ⟨rfl, rfl, fun l hl => hl⟩
  refine ⟨?_, ?_, ?_⟩
  · intro a ha i hi
    exact (hfields i).2.2 _ (hA a ha i hi)
  · intro j x hx
    replace hx : x ∈ ((setBlock st.blocks c
        (fun b => { b with lines := f b.lines })).getD j dB).e_successors := hx
    rw [(hfields j).2.1] at hx
    show ((setBlock st.blocks c
        (fun b => { b with lines := f b.lines })).getD x dB).caught_excepts ≠ []
    rw [(hfields x).1]
    exact hB j x hx
  · intro j hne
    replace hne : ((setBlock st.blocks c
        (fun b => { b with lines := f b.lines })).getD j dB).e_successors ≠ [] := hne
    rw [(hfields j).2.1] at hne
    exact (hfields j).2.2 _ (hC j hne)

theorem inv_accumsExtend (st : TState) (n : Nat) (hinv : InvSt st) :
    InvSt { st with accums := st.accums ++ List.replicate n [] } := by
  obtain ⟨hA, hB, hC⟩ := hinv
  refine ⟨?_, hB, hC⟩
  intro a ha i hi
  rcases List.mem_append.mp ha with hold | hrep
  · exact hA a hold i hi
  · have : a = [] := List.eq_of_mem_replicate hrep
    subst this
    exact absurd hi (List.not_mem_nil i)

theorem cmok_of_inv (st : TState) (v : Var) (pidx : Nat) (hinv : InvSt st) :
    CMok st (some (v, st.accums.getD pidx [])) := by
  intro p hp
  by_cases hlt : pidx < st.accums.length
  · have hmem : st.accums.getD pidx [] ∈ st.accums := by
      rw [List.getD_eq_getElem?_getD, List.getElem?_eq_getElem hlt]
      exact List.getElem_mem hlt
    exact hinv.1 _ hmem p hp
  · rw [List.getD_eq_default _ _ (Nat.le_of_not_lt hlt)] at hp
    exact absurd hp (List.not_mem_nil p)

theorem visitExprOpt_ext (e : Option Expr) (ls : List Line) :
    ∃ ext, visitExprOpt e ls = ls ++ ext := by
  rcases e with _ | e
  · exact ⟨[], by simp [visitExprOpt]⟩
  · exact ⟨visitExpr e [], visitExpr_append e ls⟩

theorem visitExprOptThrow_ext (e : Option Expr) (ls : List Line) :
    ∃ ext, visitExprOpt e ls ++ [Line.canthrow] = ls ++ ext := by
  obtain ⟨ext, hext⟩ := visitExprOpt_ext e ls
  exact ⟨ext ++ [Line.canthrow], by rw [hext, List.append_assoc]⟩

theorem inv_stmtTail (bk : Option Key) (st : TState) (cs : List Nat)
    (cur : Option Nat) (st2 : TState) (cur2 : Option Nat)
    (h : stmtTail bk st cs cur = some (st2, cur2)) (hinv : InvSt st) : InvSt st2 := by
  rcases bk with _ | b
  · rw [stmtTail.eq_def] at h
    dsimp only at h
    simp only [Option.some_inj, Prod.mk.injEq] at h
    obtain ⟨rfl, _⟩ := h
    exact hinv
  · rw [stmtTail.eq_def] at h
    dsimp only at h
    rcases cur with _ | c
    · dsimp only at h
      exact absurd h (by simp)
    · dsimp only at h
      rcases hmb : makeBlock b (finishBlock c st cs) none with _ | ⟨st3, idx⟩
      · rw [hmb] at h
        exact absurd h (by simp)
      · rw [hmb] at h
        simp only [Option.some_inj, Prod.mk.injEq] at h
        obtain ⟨rfl, _⟩ := h
        exact inv_makeBlock b (finishBlock c st cs) none st3 idx hmb
          (inv_finishBlock c st cs hinv) trivial

theorem inv_scopeTail (ck : Key) (head : Nat) (lh : Bool) (cs : List Nat)
    (cur : Option Nat) (st3 : TState) (stF : TState)
    (h : (match (if lh = true then drainLoop ck head st3 else some st3) with
          | none => none
          | some st4 =>
            some (match cur with
              | some c => finishBlock c st4 cs
              | none => st4)) = some stF)
    (hinv : InvSt st3) : InvSt stF := by
  rcases lh with _ | _
  · simp only [Bool.false_eq_true, if_false] at h
    rcases cur with _ | c
    · simp only [Option.some_inj] at h
      obtain rfl := h
      exact hinv
    · simp only [Option.some_inj] at h
      obtain rfl := h
      exact inv_finishBlock c st3 cs hinv
  · simp only [if_true] at h
    rcases hdl : drainLoop ck head st3 with _ | st4
    · rw [hdl] at h
      exact absurd h (by simp)
    · rw [hdl] at h
      have hinv4 := inv_drainLoop ck head st3 st4 hdl hinv
      rcases cur with _ | c
      · simp only [Option.some_inj] at h
        obtain rfl := h
        exact hinv4
      · simp only [Option.some_inj] at h
        obtain rfl := h
        exact inv_finishBlock c st4 cs hinv4

mutual

theorem inv_visitScope : ∀ (sc : Scope) (lh : Bool) (st : TState) (cs : List Nat)
    (cm : Option (Var × List Nat)) (st2 : TState),
    visitScope sc lh st cs cm = some st2 → InvSt st → CMok st cm → InvSt st2
  | .mk ck jk stmts, lh, st, cs, cm, stF => by
    intro h hinv hcm
    rw [visitScope] at h
    rcases hmb : makeBlock ck st cm with _ | ⟨st1, head⟩
    · rw [hmb] at h
      exact absurd h (by simp)
    · rw [hmb] at h
      dsimp only at h
      have hinv1 : InvSt st1 := inv_makeBlock ck st cm st1 head hmb hinv hcm
      rcases hvs : visitStmts stmts st1 cs (some head) with _ | ⟨stA, cur⟩
      · rw [hvs] at h
        exact absurd h (by simp)
      · rw [hvs] at h
        dsimp only at h
        have hinv2 : InvSt stA :=
          inv_visitStmts stmts st1 cs (some head) stA cur hvs hinv1
        rcases jk with _ | j
        · dsimp only at h
          exact inv_scopeTail ck head lh cs cur stA stF h hinv2
        · dsimp only at h
          exact inv_scopeTail ck head lh cs cur (registerPending j cur stA) stF h
            (inv_registerPending j cur stA hinv2)

theorem inv_visitStmts : ∀ (l : List Stmt) (st : TState) (cs : List Nat)
    (cur : Option Nat) (st2 : TState) (cur2 : Option Nat),
    visitStmts l st cs cur = some (st2, cur2) → InvSt st → InvSt st2
  | [], st, cs, cur, st2, cur2 => by
    intro h hinv
    rw [visitStmts] at h
    simp only [Option.some_inj, Prod.mk.injEq] at h
    obtain ⟨rfl, _⟩ := h
    exact hinv
  | stmt :: rest, st, cs, cur, st2, cur2 => by
    intro h hinv
    rw [visitStmts] at h
    rcases h1 : visitStmt1 stmt st cs cur with _ | ⟨stA, curA⟩
    · rw [h1] at h
      exact absurd h (by simp)
    · rw [h1] at h
      dsimp only at h
      exact inv_visitStmts rest stA cs curA st2 cur2 h
        (inv_visitStmt1 stmt st cs cur stA curA h1 hinv)

theorem inv_visitStmt1 : ∀ (stmt : Stmt) (st : TState) (cs : List Nat)
    (cur : Option Nat) (st2 : TState) (cur2 : Option Nat),
    visitStmt1 stmt st cs cur = some (st2, cur2) → InvSt st → InvSt st2
  | .expressionStmt e, st, cs, cur, st2, cur2 => by
    intro h hinv
    rw [visitStmt1.eq_def] at h
    dsimp only at h
    rcases cur with _ | c
    · exact absurd h (by simp)
    · simp only [Option.some_inj, Prod.mk.injEq] at h
      obtain ⟨rfl, _⟩ := h
      exact inv_appendLines c (visitExprOpt e) st (fun ls => visitExprOpt_ext e ls) hinv
  | .returnStmt e, st, cs, cur, st2, cur2 => by
    intro h hinv
    rw [visitStmt1.eq_def] at h
    dsimp only at h
    rcases cur with _ | c
    · exact absurd h (by simp)
    · simp only [Option.some_inj, Prod.mk.injEq] at h
      obtain ⟨rfl, _⟩ := h
      exact inv_appendLines c (visitExprOpt e) st (fun ls => visitExprOpt_ext e ls) hinv
  | .throwStmt e, st, cs, cur, st2, cur2 => by
    intro h hinv
    rw [visitStmt1.eq_def] at h
    dsimp only at h
    rcases cur with _ | c
    · exact absurd h (by simp)
    · simp only [Option.some_inj, Prod.mk.injEq] at h
      obtain ⟨rfl, _⟩ := h
      exact inv_appendLines c (fun ls => visitExprOpt e ls ++ [Line.canthrow]) st
        (fun ls => visitExprOptThrow_ext e ls) hinv
  | .ifStmt e bk subs, st, cs, cur, st2, cur2 => by
    intro h hinv
    rw [visitStmt1.eq_def] at h
    dsimp only at h
    rcases cur with _ | c
    · exact absurd h (by simp)
    · dsimp only at h
      rcases hsubs : visitSubs subs c (appendLines c (visitExprOpt e) st) cs with _ | stB
      · rw [hsubs] at h
        exact absurd h (by simp)
      · rw [hsubs] at h
        dsimp only at h
        have hinvB := inv_visitSubs subs c (appendLines c (visitExprOpt e) st) cs stB hsubs
          (inv_appendLines c (visitExprOpt e) st (fun ls => visitExprOpt_ext e ls) hinv)
        exact inv_stmtTail bk stB cs (some c) st2 cur2 h hinvB
  | .switchStmt e hd bk subs, st, cs, cur, st2, cur2 => by
    intro h hinv
    rw [visitStmt1.eq_def] at h
    dsimp only at h
    rcases cur with _ | c
    · exact absurd h (by simp)
    · dsimp only at h
      rcases hsubs : visitSubs subs c (appendLines c (visitExprOpt e) st) cs with _ | stB
      · rw [hsubs] at h
        exact absurd h (by simp)
      · rw [hsubs] at h
        dsimp only at h
        have hinvB := inv_visitSubs subs c (appendLines c (visitExprOpt e) st) cs stB hsubs
          (inv_appendLines c (visitExprOpt e) st (fun ls => visitExprOpt_ext e ls) hinv)
        exact inv_stmtTail bk stB cs (some c) st2 cur2 h hinvB
  | .whileStmt bk body, st, cs, cur, st2, cur2 => by
    intro h hinv
    rw [visitStmt1] at h
    rcases hvs : visitScope body true (registerPending body.continueKey cur st) cs none
        with _ | stB
    · rw [hvs] at h
      exact absurd h (by simp)
    · rw [hvs] at h
      dsimp only at h
      have hinvB := inv_visitScope body true (registerPending body.continueKey cur st) cs
        none stB hvs (inv_registerPending body.continueKey cur st hinv) trivial
      exact inv_stmtTail bk stB cs cur st2 cur2 h hinvB
  | .tryStmt bk tryb pairs, st, cs, cur, st2, cur2 => by
    intro h hinv
    rw [visitStmt1] at h
    rcases hvs : visitScope tryb false
        (registerPending tryb.continueKey cur
          { st with accums := st.accums ++ List.replicate pairs.length [] })
        (cs ++ (List.range pairs.length).map (fun i => st.accums.length + i)) none
        with _ | stB
    · rw [hvs] at h
      exact absurd h (by simp)
    · rw [hvs] at h
      dsimp only at h
      have hinvB := inv_visitScope tryb false
        (registerPending tryb.continueKey cur
          { st with accums := st.accums ++ List.replicate pairs.length [] })
        (cs ++ (List.range pairs.length).map (fun i => st.accums.length + i)) none stB hvs
        (inv_registerPending tryb.continueKey cur
          { st with accums := st.accums ++ List.replicate pairs.length [] }
          (inv_accumsExtend st pairs.length hinv)) trivial
      rcases hvp : visitPairs pairs stB cs
          (cs ++ (List.range pairs.length).map (fun i => st.accums.length + i))
          with _ | ⟨stC, stkC⟩
      · rw [hvp] at h
        exact absurd h (by simp)
      · rw [hvp] at h
        dsimp only at h
        have hinvC := inv_visitPairs pairs stB cs
          (cs ++ (List.range pairs.length).map (fun i => st.accums.length + i)) stC stkC
          hvp hinvB
        exact inv_stmtTail bk stC cs cur st2 cur2 h hinvC
  | .statementBlock bk sc, st, cs, cur, st2, cur2 => by
    intro h hinv
    rw [visitStmt1] at h
    rcases hvs : visitScope sc false (registerPending sc.continueKey cur st) cs none
        with _ | stB
    · rw [hvs] at h
      exact absurd h (by simp)
    · rw [hvs] at h
      dsimp only at h
      have hinvB := inv_visitScope sc false (registerPending sc.continueKey cur st) cs
        none stB hvs (inv_registerPending sc.continueKey cur st hinv) trivial
      exact inv_stmtTail bk stB cs cur st2 cur2 h hinvB

theorem inv_visitSubs : ∀ (subs : List Scope) (c : Nat) (st : TState) (cs : List Nat)
    (st2 : TState), visitSubs subs c st cs = some st2 → InvSt st → InvSt st2
  | [], c, st, cs, st2 => by
    intro h hinv
    rw [visitSubs] at h
    obtain rfl := Option.some_inj.mp h
    exact hinv
  | sub :: rest, c, st, cs, st2 => by
    intro h hinv
    rw [visitSubs] at h
    rcases hvs : visitScope sub false (registerPending sub.continueKey (some c) st) cs none
        with _ | stB
    · rw [hvs] at h
      exact absurd h (by simp)
    · rw [hvs] at h
      dsimp only at h
      exact inv_visitSubs rest c stB cs st2 h
        (inv_visitScope sub false (registerPending sub.continueKey (some c) st) cs none stB
          hvs (inv_registerPending sub.continueKey (some c) st hinv) trivial)

theorem inv_visitPairs : ∀ (pairs : List (Var × Scope)) (st : TState) (cs : List Nat)
    (stk : List Nat) (st2 : TState) (stk2 : List Nat),
    visitPairs pairs st cs stk = some (st2, stk2) → InvSt st → InvSt st2
  | [], st, cs, stk, st2, stk2 => by
    intro h hinv
    rw [visitPairs] at h
    simp only [Option.some_inj, Prod.mk.injEq] at h
    obtain ⟨rfl, _⟩ := h
    exact hinv
  | (v, cb) :: rest, st, cs, stk, st2, stk2 => by
    intro h hinv
    rw [visitPairs] at h
    rcases hgl : stk.getLast? with _ | pidx
    · rw [hgl] at h
      exact absurd h (by simp)
    · rw [hgl] at h
      dsimp only at h
      rcases hvs : visitScope cb false st cs (some (v, st.accums.getD pidx []))
          with _ | stB
      · rw [hvs] at h
        exact absurd h (by simp)
      · rw [hvs] at h
        dsimp only at h
        exact inv_visitPairs rest stB cs stk.dropLast st2 stk2 h
          (inv_visitScope cb false st cs (some (v, st.accums.getD pidx [])) stB hvs hinv
            (cmok_of_inv st v pidx hinv))

end

/-- C3 (invariant form): in every graph the traversal produces, a block whose
event log contains no `canthrow` has no outgoing exceptional edges, and every
exceptional successor is a catch-handler entry block (it carries a caught
exception descriptor).  Handlers receive exceptional edges only from blocks
registered in the accumulator of a lexically enclosing try statement, which is
how the edges are created in `makeBlock`. -/
theorem claim_C3 (root : Scope) (g : DUGraph) (h : makeCFG root = some g) (i : Nat) :
    (Line.canthrow ∉ (g.arena.getD i dB).lines → (g.arena.getD i dB).e_successors = []) ∧
    (∀ j, j ∈ (g.arena.getD i dB).e_successors →
      (g.arena.getD j dB).caught_excepts ≠ []) := by
  have hinv0 : InvSt initState := by
    refine ⟨?_, ?_, ?_⟩
    · intro a ha
      exact absurd ha (List.not_mem_nil a)
    · intro j x hx
      exact absurd hx (List.not_mem_nil x)
    · intro j hne
      exact absurd rfl hne
  rw [makeCFG] at h
  rcases hv : visitScope root false initState [] none with _ | st
  · rw [hv] at h
    exact absurd h (by simp)
  · rw [hv] at h
    simp only [Option.some_inj] at h
    obtain rfl := h.symm
    obtain ⟨hA, hB, hC⟩ := inv_visitScope root false initState [] none st hv hinv0 trivial
    constructor
    · intro hno
      by_contra hne
      exact hno (hC i hne)
    · intro j hj
      exact hB i j hj

/-- A try statement whose body throws, with one catch clause. -/
def c3tree : Scope :=
  .mk 0 none
    [ .tryStmt (some 5)
        (.mk 1 (some 5) [.throwStmt (some (.local_ 3))])
        [(7, .mk 2 (some 5) [])] ]

/-- The graph built from `c3tree`. -/
def c3G : DUGraph where
  arena := [{ key := 0, n_successors := [1] },
            { key := 1, lines := [Line.use 3, Line.canthrow],
              e_successors := [2], n_successors := [3] },
            { key := 2, caught_excepts := [7], n_successors := [3] },
            { key := 5 }]
  blocks := [0, 1, 2, 3]
  entry := 0

/-- Witness for C3: in the concrete try/catch graph, the exceptional successor
of the throwing block is the catch-handler entry. -/
theorem claim_C3_witness :
    makeCFG c3tree = some c3G ∧
    (c3G.arena.getD 2 dB).caught_excepts ≠ [] := by
  refine ⟨by decide, ?_⟩
  exact (claim_C3 c3tree c3G (by decide) 1).2 2 (by decide)

/-! ### C6: the pending successor map is drained -/

theorem makeBlock_bd (key : Key) (st : TState) (cm : Option (Var × List Nat))
    (st2 : TState) (idx : Nat) (h : makeBlock key st cm = some (st2, idx)) :
    st2.bd = bdSet st.bd key [] := by
  rw [makeBlock] at h
  rcases hall : allSome (st.bd key) with _ | parents
  · rw [hall] at h
    exact absurd h (by simp)
  · rw [hall] at h
    rcases cm with _ | ⟨ce, ep⟩
    · simp only [Option.some_inj, Prod.mk.injEq] at h
      obtain ⟨hst, _⟩ := h
      rw [← hst]
    · simp only [Option.some_inj, Prod.mk.injEq] at h
      obtain ⟨hst, _⟩ := h
      rw [← hst]

theorem drainLoop_bd (ck : Key) (head : Nat) (st : TState) (st2 : TState)
    (h : drainLoop ck head st = some st2) : st2.bd = bdSet st.bd ck [] := by
  rw [drainLoop] at h
  rcases hall : allSome (st.bd ck) with _ | parents
  · rw [hall] at h
    exact absurd h (by simp)
  · rw [hall] at h
    simp only [Option.some_inj] at h
    rw [← h]

theorem drain_stmtTail (bk : Option Key) (st : TState) (cs : List Nat)
    (cur : Option Nat) (st2 : TState) (cur2 : Option Nat) (T : List Key)
    (h : stmtTail bk st cs cur = some (st2, cur2))
    (hpre : ∀ k, k ∉ optCons bk T → st.bd k = []) :
    ∀ k, k ∉ T → st2.bd k = [] := by
  intro k hk
  rcases bk with _ | b
  · rw [stmtTail.eq_def] at h
    dsimp only at h
    simp only [Option.some_inj, Prod.mk.injEq] at h
    obtain ⟨rfl, _⟩ := h
    exact hpre k hk
  · rw [stmtTail.eq_def] at h
    dsimp only at h
    rcases cur with _ | c
    · dsimp only at h
      exact absurd h (by simp)
    · dsimp only at h
      rcases hmb : makeBlock b (finishBlock c st cs) none with _ | ⟨st3, idx⟩
      · rw [hmb] at h
        exact absurd h (by simp)
      · rw [hmb] at h
        simp only [Option.some_inj, Prod.mk.injEq] at h
        obtain ⟨rfl, _⟩ := h
        have hbd := makeBlock_bd b (finishBlock c st cs) none st3 idx hmb
        have hfb := (finishBlock_spec c st cs).2.1
        rw [hbd, hfb, bdSet]
        by_cases hkb : k = b
        · rw [if_pos hkb]
        · rw [if_neg hkb]
          refine hpre k ?_
          intro hmem
          rcases List.mem_cons.mp hmem with he | ht
          · exact hkb he
          · exact hk ht

mutual

theorem drain_visitScope : ∀ (sc : Scope) (lh : Bool) (st : TState) (cs : List Nat)
    (cm : Option (Var × List Nat)) (st2 : TState) (T : List Key),
    WFscope T sc lh = true → visitScope sc lh st cs cm = some st2 →
    (∀ k, k ∉ T → k ≠ sc.continueKey → st.bd k = []) →
    ∀ k, k ∉ T → st2.bd k = []
  | .mk ck jk stmts, lh, st, cs, cm, stF, T => by
    intro hwf h hpre
    rw [WFscope.eq_def] at hwf
    dsimp only at hwf
    rw [Bool.and_eq_true] at hwf
    obtain ⟨hwfs, hwfj⟩ := hwf
    rw [visitScope] at h
    rcases hmb : makeBlock ck st cm with _ | ⟨st1, head⟩
    · rw [hmb] at h
      exact absurd h (by simp)
    · rw [hmb] at h
      dsimp only at h
      have hbd1 := makeBlock_bd ck st cm st1 head hmb
      have hpre1 : ∀ k, k ∉ (if lh then ck :: T else T) → st1.bd k = [] := by
        intro k hk
        rw [hbd1, bdSet]
        by_cases hkc : k = ck
        · rw [if_pos hkc]
        · rw [if_neg hkc]
          rcases lh with _ | _
          · exact hpre k hk hkc
          · refine hpre k ?_ hkc
            intro hmem
            exact hk (List.mem_cons_of_mem ck hmem)
      rcases hvs : visitStmts stmts st1 cs (some head) with _ | ⟨stA, cur⟩
      · rw [hvs] at h
        exact absurd h (by simp)
      · rw [hvs] at h
        dsimp only at h
        have hpreA : ∀ k, k ∉ (if lh then ck :: T else T) → stA.bd k = [] := by
          rcases lh with _ | _
          · exact drain_visitStmts stmts st1 cs (some head) stA cur T hwfs hvs hpre1
          · exact drain_visitStmts stmts st1 cs (some head) stA cur (ck :: T) hwfs hvs hpre1
        have hpre3 : ∀ k, k ∉ (if lh then ck :: T else T) →
            (match jk with
              | some j => registerPending j cur stA
              | none => stA).bd k = [] := by
          rcases jk with _ | j
          · exact hpreA
          · intro k hk
            show bdSet stA.bd j (stA.bd j ++ [cur]) k = []
            rw [bdSet]
            have hj : j ∈ (if lh then ck :: T else T) := by
              rcases lh with _ | _
              · simp only [if_false] at hwfj ⊢
                exact of_decide_eq_true hwfj
              · simp only [if_true] at hwfj ⊢
                exact of_decide_eq_true hwfj
            have hkj : k ≠ j := fun he => hk (he ▸ hj)
            rw [if_neg hkj]
            exact hpreA k hk
        rcases jk with _ | j
        · dsimp only at h hpre3
          exact drain_scopeTail ck head lh cs cur stA stF T h hpre3
        · dsimp only at h hpre3
          exact drain_scopeTail ck head lh cs cur
            (registerPending j cur stA) stF T h hpre3

theorem drain_scopeTail : ∀ (ck : Key) (head : Nat) (lh : Bool) (cs : List Nat)
    (cur : Option Nat) (st3 : TState) (stF : TState) (T : List Key),
    (match (if lh = true then drainLoop ck head st3 else some st3) with
      | none => none
      | some st4 =>
        some (match cur with
          | some c => finishBlock c st4 cs
          | none => st4)) = some stF →
    (∀ k, k ∉ (if lh then ck :: T else T) → st3.bd k = []) →
    ∀ k, k ∉ T → stF.bd k = []
  | ck, head, lh, cs, cur, st3, stF, T => by
    intro h hpre3 k hk
    rcases lh with _ | _
    · simp only [Bool.false_eq_true, if_false] at h hpre3
      rcases cur with _ | c
      · simp only [Option.some_inj] at h
        obtain rfl := h
        exact hpre3 k hk
      · simp only [Option.some_inj] at h
        obtain rfl := h
        rw [(finishBlock_spec c st3 cs).2.1]
        exact hpre3 k hk
    · simp only [if_true] at h hpre3
      rcases hdl : drainLoop ck head st3 with _ | st4
      · rw [hdl] at h
        exact absurd h (by simp)
      · rw [hdl] at h
        have hbd4 := drainLoop_bd ck head st3 st4 hdl
        have hpost : st4.bd k = [] := by
          rw [hbd4, bdSet]
          by_cases hkc : k = ck
          · rw [if_pos hkc]
          · rw [if_neg hkc]
            refine hpre3 k ?_
            intro hmem
            rcases List.mem_cons.mp hmem with he | ht
            · exact hkc he
            · exact hk ht
        rcases cur with _ | c
        · simp only [Option.some_inj] at h
          obtain rfl := h
          exact hpost
        · simp only [Option.some_inj] at h
          obtain rfl := h
          rw [(finishBlock_spec c st4 cs).2.1]
          exact hpost

theorem drain_visitStmts : ∀ (l : List Stmt) (st : TState) (cs : List Nat)
    (cur : Option Nat) (st2 : TState) (cur2 : Option Nat) (T : List Key),
    WFstmts T l = true → visitStmts l st cs cur = some (st2, cur2) →
    (∀ k, k ∉ T → st.bd k = []) → ∀ k, k ∉ T → st2.bd k = []
  | [], st, cs, cur, st2, cur2, T => by
    intro _ h hpre
    rw [visitStmts] at h
    simp only [Option.some_inj, Prod.mk.injEq] at h
    obtain ⟨rfl, _⟩ := h
    exact hpre
  | stmt :: rest, st, cs, cur, st2, cur2, T => by
    intro hwf h hpre
    rw [WFstmts] at hwf
    rw [Bool.and_eq_true] at hwf
    rw [visitStmts] at h
    rcases h1 : visitStmt1 stmt st cs cur with _ | ⟨stA, curA⟩
    · rw [h1] at h
      exact absurd h (by simp)
    · rw [h1] at h
      dsimp only at h
      exact drain_visitStmts rest stA cs curA st2 cur2 T hwf.2 h
        (drain_visitStmt1 stmt st cs cur stA curA T hwf.1 h1 hpre)

theorem drain_visitStmt1 : ∀ (stmt : Stmt) (st : TState) (cs : List Nat)
    (cur : Option Nat) (st2 : TState) (cur2 : Option Nat) (T : List Key),
    WFstmt T stmt = true → visitStmt1 stmt st cs cur = some (st2, cur2) →
    (∀ k, k ∉ T → st.bd k = []) → ∀ k, k ∉ T → st2.bd k = []
  | .expressionStmt e, st, cs, cur, st2, cur2, T => by
    intro _ h hpre
    rw [visitStmt1.eq_def] at h
    dsimp only at h
    rcases cur with _ | c
    · exact absurd h (by simp)
    · simp only [Option.some_inj, Prod.mk.injEq] at h
      obtain ⟨rfl, _⟩ := h
      exact hpre
  | .returnStmt e, st, cs, cur, st2, cur2, T => by
    intro _ h hpre
    rw [visitStmt1.eq_def] at h
    dsimp only at h
    rcases cur with _ | c
    · exact absurd h (by simp)
    · simp only [Option.some_inj, Prod.mk.injEq] at h
      obtain ⟨rfl, _⟩ := h
      exact hpre
  | .throwStmt e, st, cs, cur, st2, cur2, T => by
    intro _ h hpre
    rw [visitStmt1.eq_def] at h
    dsimp only at h
    rcases cur with _ | c
    · exact absurd h (by simp)
    · simp only [Option.some_inj, Prod.mk.injEq] at h
      obtain ⟨rfl, _⟩ := h
      exact hpre
  | .ifStmt e bk subs, st, cs, cur, st2, cur2, T => by
    intro hwf h hpre
    rw [WFstmt] at hwf
    rw [visitStmt1.eq_def] at h
    dsimp only at h
    rcases cur with _ | c
    · exact absurd h (by simp)
    · dsimp only at h
      rcases hsubs : visitSubs subs c (appendLines c (visitExprOpt e) st) cs with _ | stB
      · rw [hsubs] at h
        exact absurd h (by simp)
      · rw [hsubs] at h
        dsimp only at h
        have hpreB : ∀ k, k ∉ optCons bk T → stB.bd k = [] := by
          refine drain_visitSubs subs c (appendLines c (visitExprOpt e) st) cs stB
            (optCons bk T) hwf hsubs ?_
          intro k hk _
          refine hpre k ?_
          intro hmem
          rcases bk with _ | b
          · exact hk hmem
          · exact hk (List.mem_cons_of_mem b hmem)
        exact drain_stmtTail bk stB cs (some c) st2 cur2 T h hpreB
  | .switchStmt e hd bk subs, st, cs, cur, st2, cur2, T => by
    intro hwf h hpre
    rw [WFstmt] at hwf
    rw [visitStmt1.eq_def] at h
    dsimp only at h
    rcases cur with _ | c
    · exact absurd h (by simp)
    · dsimp only at h
      rcases hsubs : visitSubs subs c (appendLines c (visitExprOpt e) st) cs with _ | stB
      · rw [hsubs] at h
        exact absurd h (by simp)
      · rw [hsubs] at h
        dsimp only at h
        have hpreB : ∀ k, k ∉ optCons bk T → stB.bd k = [] := by
          refine drain_visitSubs subs c (appendLines c (visitExprOpt e) st) cs stB
            (optCons bk T) hwf hsubs ?_
          intro k hk _
          refine hpre k ?_
          intro hmem
          rcases bk with _ | b
          · exact hk hmem
          · exact hk (List.mem_cons_of_mem b hmem)
        exact drain_stmtTail bk stB cs (some c) st2 cur2 T h hpreB
  | .whileStmt bk body, st, cs, cur, st2, cur2, T => by
    intro hwf h hpre
    rw [WFstmt] at hwf
    rw [visitStmt1] at h
    rcases hvs : visitScope body true (registerPending body.continueKey cur st) cs none
        with _ | stB
    · rw [hvs] at h
      exact absurd h (by simp)
    · rw [hvs] at h
      dsimp only at h
      have hpreB : ∀ k, k ∉ optCons bk T → stB.bd k = [] := by
        refine drain_visitScope body true (registerPending body.continueKey cur st) cs none
          stB (optCons bk T) hwf hvs ?_
        intro k hk hkc
        show bdSet st.bd body.continueKey (st.bd body.continueKey ++ [cur]) k = []
        rw [bdSet, if_neg hkc]
        refine hpre k ?_
        intro hmem
        rcases bk with _ | b
        · exact hk hmem
        · exact hk (List.mem_cons_of_mem b hmem)
      exact drain_stmtTail bk stB cs cur st2 cur2 T h hpreB
  | .tryStmt bk tryb pairs, st, cs, cur, st2, cur2, T => by
    intro hwf h hpre
    rw [WFstmt] at hwf
    rw [Bool.and_eq_true] at hwf
    rw [visitStmt1] at h
    rcases hvs : visitScope tryb false
        (registerPending tryb.continueKey cur
          { st with accums := st.accums ++ List.replicate pairs.length [] })
        (cs ++ (List.range pairs.length).map (fun i => st.accums.length + i)) none
        with _ | stB
    · rw [hvs] at h
      exact absurd h (by simp)
    · rw [hvs] at h
      dsimp only at h
      have hpreB : ∀ k, k ∉ optCons bk T → stB.bd k = [] := by
        refine drain_visitScope tryb false
          (registerPending tryb.continueKey cur
            { st with accums := st.accums ++ List.replicate pairs.length [] })
          (cs ++ (List.range pairs.length).map (fun i => st.accums.length + i)) none stB
          (optCons bk T) hwf.1 hvs ?_
        intro k hk hkc
        show bdSet st.bd tryb.continueKey (st.bd tryb.continueKey ++ [cur]) k = []
        rw [bdSet, if_neg hkc]
        refine hpre k ?_
        intro hmem
        rcases bk with _ | b
        · exact hk hmem
        · exact hk (List.mem_cons_of_mem b hmem)
      rcases hvp : visitPairs pairs stB cs
          (cs ++ (List.range pairs.length).map (fun i => st.accums.length + i))
          with _ | ⟨stC, stkC⟩
      · rw [hvp] at h
        exact absurd h (by simp)
      · rw [hvp] at h
        dsimp only at h
        have hpreC : ∀ k, k ∉ optCons bk T → stC.bd k = [] :=
          drain_visitPairs pairs stB cs
            (cs ++ (List.range pairs.length).map (fun i => st.accums.length + i)) stC stkC
            (optCons bk T) hwf.2 hvp hpreB
        exact drain_stmtTail bk stC cs cur st2 cur2 T h hpreC
  | .statementBlock bk sc, st, cs, cur, st2, cur2, T => by
    intro hwf h hpre
    rw [WFstmt] at hwf
    rw [visitStmt1] at h
    rcases hvs : visitScope sc false (registerPending sc.continueKey cur st) cs none
        with _ | stB
    · rw [hvs] at h
      exact absurd h (by simp)
    · rw [hvs] at h
      dsimp only at h
      have hpreB : ∀ k, k ∉ optCons bk T → stB.bd k = [] := by
        refine drain_visitScope sc false (registerPending sc.continueKey cur st) cs none
          stB (optCons bk T) hwf hvs ?_
        intro k hk hkc
        show bdSet st.bd sc.continueKey (st.bd sc.continueKey ++ [cur]) k = []
        rw [bdSet, if_neg hkc]
        refine hpre k ?_
        intro hmem
        rcases bk with _ | b
        · exact hk hmem
        · exact hk (List.mem_cons_of_mem b hmem)
      exact drain_stmtTail bk stB cs cur st2 cur2 T h hpreB

theorem drain_visitSubs : ∀ (subs : List Scope) (c : Nat) (st : TState) (cs : List Nat)
    (st2 : TState) (T : List Key),
    WFsubs T subs = true → visitSubs subs c st cs = some st2 →
    (∀ k, k ∉ T → k ∉ subs.map Scope.continueKey → st.bd k = []) →
    ∀ k, k ∉ T → st2.bd k = []
  | [], c, st, cs, st2, T => by
    intro _ h hpre k hk
    rw [visitSubs] at h
    obtain rfl := Option.some_inj.mp h
    exact hpre k hk (by simp)
  | sub :: rest, c, st, cs, st2, T => by
    intro hwf h hpre
    rw [WFsubs] at hwf
    rw [Bool.and_eq_true] at hwf
    rw [visitSubs] at h
    rcases hvs : visitScope sub false (registerPending sub.continueKey (some c) st) cs none
        with _ | stB
    · rw [hvs] at h
      exact absurd h (by simp)
    · rw [hvs] at h
      dsimp only at h
      have hpostB : ∀ k, k ∉ rest.map Scope.continueKey ++ T → stB.bd k = [] := by
        refine drain_visitScope sub false (registerPending sub.continueKey (some c) st) cs
          none stB (rest.map Scope.continueKey ++ T) hwf.1 hvs ?_
        intro k hk hkc
        show bdSet st.bd sub.continueKey
          (st.bd sub.continueKey ++ [some c]) k = []
        rw [bdSet, if_neg hkc]
        refine hpre k (fun hm => hk (List.mem_append_right _ hm)) ?_
        intro hmem
        rw [List.map_cons] at hmem
        rcases List.mem_cons.mp hmem with he | ht
        · exact hkc he
        · exact hk (List.mem_append_left _ ht)
      refine drain_visitSubs rest c stB cs st2 T hwf.2 h ?_
      intro k hk hkm
      refine hpostB k ?_
      intro hmem
      rcases List.mem_append.mp hmem with hm | hm
      · exact hkm hm
      · exact hk hm

theorem drain_visitPairs : ∀ (pairs : List (Var × Scope)) (st : TState) (cs : List Nat)
    (stk : List Nat) (st2 : TState) (stk2 : List Nat) (T : List Key),
    WFpairs T pairs = true → visitPairs pairs st cs stk = some (st2, stk2) →
    (∀ k, k ∉ T → st.bd k = []) → ∀ k, k ∉ T → st2.bd k = []
  | [], st, cs, stk, st2, stk2, T => by
    intro _ h hpre
    rw [visitPairs] at h
    simp only [Option.some_inj, Prod.mk.injEq] at h
    obtain ⟨rfl, _⟩ := h
    exact hpre
  | (v, cb) :: rest, st, cs, stk, st2, stk2, T => by
    intro hwf h hpre
    rw [WFpairs] at hwf
    rw [Bool.and_eq_true] at hwf
    rw [visitPairs] at h
    rcases hgl : stk.getLast? with _ | pidx
    · rw [hgl] at h
      exact absurd h (by simp)
    · rw [hgl] at h
      dsimp only at h
      rcases hvs : visitScope cb false st cs (some (v, st.accums.getD pidx []))
          with _ | stB
      · rw [hvs] at h
        exact absurd h (by simp)
      · rw [hvs] at h
        dsimp only at h
        have hpostB : ∀ k, k ∉ T → stB.bd k = [] :=
          drain_visitScope cb false st cs (some (v, st.accums.getD pidx [])) stB T hwf.1
            hvs (fun k hk _ => hpre k hk)
        exact drain_visitPairs rest stB cs stk.dropLast st2 stk2 T hwf.2 h hpostB

end

/-- C6: on a well-formed statement tree, the traversal run by `makeCFG`
drains every pending successor entry: when `visitScope` returns, the pending
successor map has no non-empty entry. -/
theorem claim_C6 (root : Scope) (st2 : TState)
    (hwf : WFscope [] root false = true)
    (h : visitScope root false initState [] none = some st2) :
    ∀ k, st2.bd k = [] := by
  intro k
  exact drain_visitScope root false initState [] none st2 [] hwf h
    (fun k2 _ _ => rfl) k (List.not_mem_nil k)

/-- A nested statement block jumping to the enclosing break key. -/
def c6tree : Scope :=
  .mk 0 none [.statementBlock (some 3) (.mk 1 (some 3) [])]

/-- Witness for C6 on a concrete well-formed tree. -/
theorem claim_C6_witness :
    WFscope [] c6tree false = true ∧
    ((visitScope c6tree false initState [] none).getD initState).bd 3 = [] := by
  refine ⟨by decide, ?_⟩
  have h : visitScope c6tree false initState [] none =
      some ((visitScope c6tree false initState [] none).getD initState) := rfl
  exact claim_C6 c6tree _ (by decide) h 3
